import Mathlib

/-!
# devmem: addressing, validation, source loading and dump formatting

A shallow embedding of `devmem.c`.  C objects of type `unsigned long long`,
`unsigned long` and `size_t` are natural numbers below `2 ^ 64` (LP64); every
arithmetic operation the program performs on them is written with the
wrap-around operations `add64`, `mul64` and `sub64`.  The mapped region is a
function from byte offsets (relative to `va.p`) to byte values together with
its length: addresses are computed in 64 bits, and an access outside the
mapped bytes has no result.
-/

namespace Devmem

/-! ## Unsigned 64-bit arithmetic -/

/-- Addition of two `unsigned long long` values. -/
def add64 (a b : Nat) : Nat := (a + b) % 2 ^ 64

/-- Multiplication of two `unsigned long long` values. -/
def mul64 (a b : Nat) : Nat := (a * b) % 2 ^ 64

/-- Subtraction of two `unsigned long long` values. -/
def sub64 (a b : Nat) : Nat := (a + (2 ^ 64 - b % 2 ^ 64)) % 2 ^ 64

/-- The four values of `enum RDWR_WIDTH`, which are the `case` labels of every
`switch (width)` in the program; the option parser (lines 358-367) admits no
other width. -/
def width_ok (width : Nat) : Prop := width = 1 ∨ width = 2 ∨ width = 4 ∨ width = 8

instance (width : Nat) : Decidable (width_ok width) := by
  unfold width_ok; infer_instance

/-! ## Parameter validation in `main` (lines 503-517) -/

/-- The two ways the parameter check of `main` ends in `usage(..., 124)`. -/
inductive ParamError where
  | index_ge_step
  | size_below_min (size size_min : Nat)
  deriving DecidableEq, Repr

/-- The value of `size` after lines 508-511: `number * (width * step)` when the
option `-s` was not given (`size` is still `0`), then rounded down to a
multiple of `width`. -/
def main_size (size number width step : Nat) : Nat :=
  let size := if size = 0 then mul64 number (mul64 width step) else size
  if size % width ≠ 0 then sub64 size (size % width) else size

/-- The value of `size_min` computed at line 512:
`(number - 1) * (width * step) + width * (index + 1)`. -/
def size_min (number width step index : Nat) : Nat :=
  add64 (mul64 (sub64 number 1) (mul64 width step)) (mul64 width (add64 index 1))

/-- Lines 503-517 of `main`: on success the resolved `size` and `size_min`. -/
def check_params (width step index number size : Nat) : Except ParamError (Nat × Nat) :=
  if index ≥ step then .error .index_ge_step
  else
    let size := main_size size number width step
    let size_min := size_min number width step index
    if size < size_min then .error (.size_below_min size size_min)
    else .ok (size, size_min)

/-! ## The mapped region and typed element access -/

/-- Content of the mapped region, by byte offset from the base pointer `va.p`.
The region has a length `len` (a `size_t`, the `size_min` bytes that `main`
maps); an access outside it has no result in this model (the process is
killed when the page is not mapped). -/
abbrev Mem := Nat → Nat

/-- The byte at the machine address `va.p + off`, addresses being 64 bits
wide. -/
def byte_value (va : Mem) (off : Nat) : Nat := va (off % 2 ^ 64) % 256

/-- The read `*(uint8_t *)(va.p + off)` in a mapping of `len` bytes. -/
def load_byte (len : Nat) (va : Mem) (off : Nat) : Option Nat :=
  if off % 2 ^ 64 < len then some (byte_value va off) else none

/-- Value of a byte sequence read least significant byte first. -/
def from_bytes_le : List Nat → Nat
  | [] => 0
  | b :: bs => b + 256 * from_bytes_le bs

/-- The `width` low bytes of a value, least significant first. -/
def to_bytes_le : Nat → Nat → List Nat
  | 0, _ => []
  | w + 1, v => v % 256 :: to_bytes_le w (v / 256)

/-- Value of an object whose bytes, in memory order, are `bs`, on a host that is
little-endian (`le = true`) or big-endian (`le = false`). -/
def host_decode (le : Bool) (bs : List Nat) : Nat :=
  if le then from_bytes_le bs else from_bytes_le bs.reverse

/-- Bytes, in memory order, of a `width`-byte object holding `v`. -/
def host_encode (le : Bool) (width v : Nat) : List Nat :=
  if le then to_bytes_le width v else (to_bytes_le width v).reverse

/-- Byte offset, from `va.p`, of the element `va.pN[pos]`: its address is
`va.p + pos * width`, computed in 64 bits. -/
def elem_offset (width pos : Nat) : Nat := mul64 pos width

/-- The value of the `width`-byte object at the address of `va.pN[pos]`. -/
def elem_value (le : Bool) (va : Mem) (width pos : Nat) : Nat :=
  host_decode le ((List.range width).map fun k => va (elem_offset width pos + k) % 256)

/-- The read of the element `va.pN[pos]`, `N = 8 * width`, in a mapping of
`len` bytes. -/
def load_elem (le : Bool) (len : Nat) (va : Mem) (width pos : Nat) : Option Nat :=
  if elem_offset width pos + width ≤ len then some (elem_value le va width pos) else none

/-- The region after the bytes of `v` have been put at the address of
`va.pN[pos]`. -/
def store_bytes (le : Bool) (va : Mem) (width pos v : Nat) : Mem :=
  fun a =>
    if elem_offset width pos ≤ a ∧ a < elem_offset width pos + width then
      (host_encode le width v).getD (a - elem_offset width pos) 0
    else va a

/-- The assignment `va.pN[pos] = v`, `N = 8 * width`, in a mapping of `len`
bytes. -/
def store_elem (le : Bool) (len : Nat) (va : Mem) (width pos v : Nat) : Option Mem :=
  if elem_offset width pos + width ≤ len then some (store_bytes le va width pos v) else none

/-- The index expression `i * step + index` of the write loop (lines 662-671). -/
def elem_pos (step index i : Nat) : Nat := add64 (mul64 i step) index

/-- The first `n` iterations of the write loop of `main` (lines 659-674),
`for (i = 0; i < number; i++) va.pN[i * step + index] = buf.pN[i];`, in a
mapping of `len` bytes: the region they leave, if no store left the
mapping. -/
def write_loop (le : Bool) (len width step index : Nat) (buf : List Nat) (va : Mem) :
    Nat → Option Mem
  | 0 => some va
  | n + 1 =>
    match write_loop le len width step index buf va n with
    | none => none
    | some m =>
      if width_ok width then store_elem le len m width (elem_pos step index n) (buf.getD n 0)
      else some m

/-! ## Loading the write buffer -/

/-- Ways in which filling the write buffer ends (`ret = 123`), together with the
store past the end of the `calloc`ed buffer. -/
inductive LoadError where
  | file_too_small
  | short_read (i : Nat)
  | too_few_literals
  | invalid_literal (i : Nat)
  | store_past_buffer (i : Nat)
  deriving DecidableEq, Repr

/-- The conversions `be16toh`, `be32toh`, `be64toh` on a host of the given byte
order: a byte swap on a little-endian host, the identity on a big-endian one. -/
def betoh (le : Bool) (width v : Nat) : Nat :=
  if le then from_bytes_le (to_bytes_le width v).reverse else v

/-- The value stored by the `switch (width)` of lines 572-585 for the chunk `t`
just read: `*(uint8_t *)t` for width 1, `beNtoh(*(uintN_t *)t)` otherwise. -/
def decode_chunk (le : Bool) (width : Nat) (t : List Nat) : Nat :=
  if width = 1 then t.getD 0 0 else betoh le width (host_decode le t)

/-- The read loop of lines 562-586; `todo` counts the remaining iterations
`number - i`, `rest` is the unread part of the file. -/
def bin_loop (le : Bool) (width : Nat) :
    Nat → Nat → List Nat → List Nat → Except LoadError (List Nat)
  | 0, _, _, buf => .ok buf
  | todo + 1, i, rest, buf =>
    let t := (rest.take width).map (· % 256)
    if t.length ≠ width then .error (.short_read i)
    else
      bin_loop le width todo (i + 1) (rest.drop width)
        (if width_ok width then buf.set i (decode_chunk le width t) else buf)

/-- The binary-file branch (lines 540-587): `file` is the content of `bin_file`
(its length is `st_size`), `size_min` the value computed at line 512, the
buffer is the zeroed `calloc(number, width)`. -/
def load_bin (le : Bool) (width number size_min : Nat) (file : List Nat) :
    Except LoadError (List Nat) :=
  if file.length < size_min then .error .file_too_small
  else bin_loop le width number 0 file (List.replicate number 0)

/-- The loop of lines 599-622 over the literal tokens; `strtoull tok` is the
value returned and the text `end` points to. -/
def literal_loop (strtoull : String → Nat × String) (width : Nat) :
    List String → Nat → List Nat → Except LoadError (List Nat)
  | [], _, buf => .ok buf
  | tok :: rest, i, buf =>
    let r := strtoull tok
    if r.2 ≠ "" then .error (.invalid_literal i)
    else if ¬ width_ok width then literal_loop strtoull width rest (i + 1) buf
    else if i < buf.length then
      literal_loop strtoull width rest (i + 1) (buf.set i (r.1 % 256 ^ width))
    else .error (.store_past_buffer i)

/-- The literal branch (lines 588-622), entered when there is at least one
non-option argument and no `-b` file: `argv` holds the `argc - optind`
non-option arguments, the buffer is the zeroed `calloc(number, width)`. -/
def load_literals (strtoull : String → Nat × String) (width number : Nat)
    (argv : List String) : Except LoadError (List Nat) :=
  if argv.length < number then .error .too_few_literals
  else literal_loop strtoull width argv 0 (List.replicate number 0)

/-! ## `count_valid_bit` and `dump_memb` -/

/-- The `while` loop of `count_valid_bit`; at most 64 iterations are run. -/
def count_valid_bit_loop : Nat → Nat → Nat → Nat
  | 0, _, count => count
  | fuel + 1, n, count =>
    if n &&& 2 ^ 63 = 0 then count_valid_bit_loop fuel (n * 2 % 2 ^ 64) (count - 1)
    else count

/-- Function `count_valid_bit` (lines 187-201). -/
def count_valid_bit (n : Nat) : Nat :=
  if n = 0 then 0 else count_valid_bit_loop 64 n 64

/-- The local `size` of `dump_memb` (line 218). -/
def dump_size (number width step : Nat) : Nat := mul64 number (mul64 width step)

/-- The `addr_width` computed at lines 250-255. -/
def addr_width (number width step : Nat) : Nat :=
  let valid_bit := count_valid_bit (sub64 (dump_size number width step) 1)
  let addr_width := valid_bit / 4
  let addr_width := if valid_bit % 4 ≠ 0 then addr_width + 1 else addr_width
  if addr_width = 0 then 1 else addr_width

/-- The row width after lines 239-246. -/
def row_width (width print_cnt_one_line : Nat) : Nat :=
  if print_cnt_one_line = 0 then
    let c := 16
    let c := if width > 2 then c / 2 else c
    if width > 4 then c / 2 else c
  else print_cnt_one_line

/-- The conversion `%0*x` of `printf` (any length modifier): lower-case
hexadecimal digits, padded with zeros on the left to `minw` characters. -/
def fmt_hex (minw v : Nat) : List Char :=
  let ds := Nat.toDigits 16 v
  List.replicate (minw - ds.length) '0' ++ ds

/-- The text of `"%0*llx:"` at line 264. -/
def addr_field (addr_width offset : Nat) : List Char :=
  fmt_hex addr_width offset ++ [':']

/-- The text of `" %0*x"` with field width `width * 2` (lines 271-285). -/
def hex_cell (width v : Nat) : List Char :=
  ' ' :: fmt_hex (width * 2) v

/-- The text of `" %*.*s"` with `width * 2` and the empty string (line 292). -/
def blank_cell (width : Nat) : List Char :=
  ' ' :: List.replicate (width * 2) ' '

/-- The text of `" | "` (line 295). -/
def separator : List Char := [' ', '|', ' ']

/-- The function `isprint` in the C locale. -/
def isprint (b : Nat) : Bool := decide (32 ≤ b) && decide (b ≤ 126)

/-- The text of `"%c"` at lines 301-303. -/
def char_cell (b : Nat) : List Char :=
  [if isprint b then Char.ofNat b else '.']

/-- Ways in which the model of `dump_memb` stops without a result. -/
inductive DumpFault where
  | out_of_fuel
  | line_overrun
  | out_of_mapping
  deriving DecidableEq, Repr

/-- The hex loop of lines 266-288,
`for (j = 0, _index = base; j < c && j + i < number; j++, _index += step)`:
the texts formatted, in order, and the final value of `j`.  A text is `none`
when the read of its element leaves the mapping.  The first argument bounds
the number of iterations and is started at `c`. -/
def hex_loop (le : Bool) (len : Nat) (va : Mem) (number width step i c : Nat) :
    Nat → Nat → Nat → List (Option (List Char)) × Nat
  | 0, j, _ => ([], j)
  | fuel + 1, j, _index =>
    if j < c ∧ add64 j i < number then
      let r := hex_loop le len va number width step i c fuel (j + 1) (add64 _index step)
      (if width_ok width then
          (load_elem le len va width _index).map (hex_cell width) :: r.1
        else r.1,
        r.2)
    else ([], j)

/-- The character loop of lines 297-304; a text is `none` when the read of its
byte leaves the mapping. -/
def char_loop (len : Nat) (va : Mem) (number width step i c : Nat) :
    Nat → Nat → Nat → List (Option (List Char))
  | 0, _, _ => []
  | fuel + 1, j, offset =>
    if j < c ∧ add64 j i < number then
      ((List.range width).map fun k => (load_byte len va (k + offset)).map char_cell)
        ++ char_loop len va number width step i c fuel (j + 1) (add64 offset (mul64 width step))
    else []

/-- The texts handed to the successive `snprintf` calls for the row that starts
at element `i` (lines 260-305), in the order of the calls. -/
def row_pieces (le : Bool) (len : Nat) (va : Mem) (number width step index c : Nat)
    (print_char : Bool) (i : Nat) : List (Option (List Char)) :=
  let base := add64 (mul64 i step) index
  let offset := mul64 base width
  let hex := hex_loop le len va number width step i c c 0 base
  some (addr_field (addr_width number width step) offset) :: hex.1
    ++ (if print_char then
          List.replicate (c - hex.2) (some (blank_cell width)) ++ [some separator]
            ++ char_loop len va number width step i c c 0 offset
        else [])

/-- The whole text of a list of pieces, when no read left the mapping. -/
def row_text : List (Option (List Char)) → Option (List Char)
  | [] => some []
  | none :: _ => none
  | some s :: rest =>
    match row_text rest with
    | none => none
    | some t => some (s ++ t)

/-- The line buffer `p_tmp[256]`: its text up to the terminating NUL and the
write position `idx`. -/
structure LineBuf where
  text : List Char
  idx : Nat
  deriving DecidableEq, Repr

/-- One call `idx += snprintf(p_tmp + idx, sizeof(p_tmp) - idx, ...)` producing
the text `s`.  With `idx > 256` the size argument wraps around and the write
lands outside `p_tmp`; with `idx = 256` nothing is written; otherwise at most
`255 - idx` characters and a NUL are written at `idx`. -/
def snprintf (lb : LineBuf) (s : List Char) : Except DumpFault LineBuf :=
  if 256 < lb.idx then .error .line_overrun
  else .ok ⟨if lb.idx = 256 then lb.text else lb.text.take lb.idx ++ s.take (255 - lb.idx),
            lb.idx + s.length⟩

/-- The reads and `snprintf` calls of one row, in program order. -/
def emit : List (Option (List Char)) → LineBuf → Except DumpFault LineBuf
  | [], lb => .ok lb
  | none :: _, _ => .error .out_of_mapping
  | some s :: rest, lb =>
    match snprintf lb s with
    | .error e => .error e
    | .ok lb1 => emit rest lb1

/-- The body of the row loop for the row starting at element `i`: the line
passed to `fprintf(fp, "%s\n", p_tmp)`. -/
def format_row (le : Bool) (len : Nat) (va : Mem) (number width step index c : Nat)
    (print_char : Bool) (i : Nat) : Except DumpFault (List Char) :=
  match emit (row_pieces le len va number width step index c print_char i) ⟨[], 0⟩ with
  | .error e => .error e
  | .ok lb => .ok lb.text

/-- The row loop `for (i = 0; i < number; i += print_cnt_one_line)` of lines
259-308: the lines printed. -/
def dump_loop (le : Bool) (len : Nat) (va : Mem) (number width step index c : Nat)
    (print_char : Bool) : Nat → Nat → Except DumpFault (List (List Char))
  | fuel, i =>
    if i < number then
      match fuel with
      | 0 => .error .out_of_fuel
      | fuel + 1 =>
        match format_row le len va number width step index c print_char i with
        | .error e => .error e
        | .ok line =>
          match dump_loop le len va number width step index c print_char fuel (add64 i c) with
          | .error e => .error e
          | .ok lines => .ok (line :: lines)
    else .ok []

/-- Function `dump_memb` (lines 205-309) for a non-null `va` that maps `len`
bytes: the lines it prints, in order. -/
def dump_memb (fuel : Nat) (le : Bool) (len : Nat) (va : Mem) (number width step index
    print_cnt_one_line : Nat) (print_char : Bool) : Except DumpFault (List (List Char)) :=
  if step = 0 then .ok []
  else
    dump_loop le len va number width step index (row_width width print_cnt_one_line)
      print_char fuel 0

/-- Value of `_index` in iteration `j` of the hex loop of the row that starts
at element `i` (lines 260, 266-268). -/
def dump_index (step index i j : Nat) : Nat :=
  (fun x => add64 x step)^[j] (add64 (mul64 i step) index)

/-- Value of `offset` in iteration `j` of the character loop of the row that
starts at element `i` (lines 260-261, 297-299). -/
def dump_offset (width step index i j : Nat) : Nat :=
  (fun x => add64 x (mul64 width step))^[j] (mul64 (add64 (mul64 i step) index) width)

/-! ## The mapping phase of `main` (lines 629-691) -/

/-- The mode `RD_ONLY`, the first value of `enum RDWR_MODE`. -/
def MODE_RD_ONLY : Nat := 0

/-- The mode `WR_ONLY`. -/
def MODE_WR_ONLY : Nat := 1

/-- The mode `RD_WR`. -/
def MODE_RD_WR : Nat := 2

/-- The mode `WR_RD`. -/
def MODE_WR_RD : Nat := 3

/-- The mode `RD_WR_RD`. -/
def MODE_RD_WR_RD : Nat := 4

/-- The pointer `MAP_FAILED`, `(void *) -1`. -/
def MAP_FAILED : Nat := 2 ^ 64 - 1

/-- The calls `main` makes from line 629 on, in the order it makes them. -/
inductive Event where
  | close_fd
  | dump
  | dashes
  | write
  | munmap (addr len : Nat)
  | free (p : Nat)
  deriving DecidableEq, Repr

/-- The label `free_buf` (line 689): `if (buf.p) free(buf.p);`. -/
def free_buf (buf_p : Nat) : List Event :=
  if buf_p ≠ 0 then [.free buf_p] else []

/-- Lines 629-691 of `main`: `fd_ok` tells whether `open` returned a
descriptor, `va_p` is the pointer `mmap` returned, `buf_p` the pointer held
in `buf.p` (0 when no buffer was allocated).  The result is the exit status
`ret` and the calls made. -/
def main_map_phase (mode : Nat) (fd_ok : Bool) (va_p size_min buf_p : Nat) :
    Nat × List Event :=
  if ¬ fd_ok then (122, free_buf buf_p)
  else if va_p = MAP_FAILED then (122, [.close_fd] ++ free_buf buf_p)
  else
    let read1 :=
      if mode = MODE_RD_ONLY ∨ mode = MODE_RD_WR ∨ mode = MODE_RD_WR_RD then [Event.dump]
      else []
    let wr :=
      if mode = MODE_WR_ONLY ∨ mode = MODE_RD_WR ∨ mode = MODE_WR_RD ∨ mode = MODE_RD_WR_RD
      then [Event.write] else []
    let read2 :=
      if mode = MODE_WR_RD ∨ mode = MODE_RD_WR_RD then
        (if mode = MODE_RD_WR_RD then [Event.dashes] else []) ++ [Event.dump]
      else []
    let unmap :=
      if va_p = 0 ∧ va_p ≠ MAP_FAILED then [Event.munmap va_p size_min] else []
    (0, [.close_fd] ++ read1 ++ wr ++ read2 ++ unmap ++ free_buf buf_p)

/-- Number of `munmap` calls among the calls made. -/
def munmap_calls : List Event → Nat
  | [] => 0
  | .munmap _ _ :: es => munmap_calls es + 1
  | _ :: es => munmap_calls es

/-! ## The dump as it is specified -/

/-- Number of elements in row `r` of a dump of `number` elements, `c` to a
row: `min(c, number - r * c)`. -/
def spec_row_count (number c r : Nat) : Nat := min c (number - r * c)

/-- The hex cells of row `r`: one cell of `2 * width` digits for each of the
elements `r * c + j`, `j < min(c, number - r * c)`, read at element position
`(r * c + j) * step + index` (64-bit). -/
def spec_cells (le : Bool) (va : Mem) (number width step index c r : Nat) : List Char :=
  ((List.range (spec_row_count number c r)).map fun j =>
    hex_cell width (elem_value le va width (elem_pos step index (r * c + j)))).flatten

/-- The blank cells that fill a short row up to `c` cells. -/
def spec_blanks (number width c r : Nat) : List Char :=
  (List.replicate (c - spec_row_count number c r) (blank_cell width)).flatten

/-- The character view of row `r`: one character per byte of every printed
element, read at the byte offset of the element (64-bit). -/
def spec_chars (va : Mem) (number width step index c r : Nat) : List Char :=
  ((List.range (spec_row_count number c r)).map fun j =>
    ((List.range width).map fun k =>
      char_cell (byte_value va (mul64 (elem_pos step index (r * c + j)) width + k))).flatten).flatten

/-- Row `r` of the dump: the address `(r * c * step + index) * width` (64-bit)
in `addr_width` digits, a colon, the hex cells, and with `print_char` the blank
cells, the separator and the character view. -/
def spec_row (le : Bool) (va : Mem) (number width step index c : Nat) (print_char : Bool)
    (r : Nat) : List Char :=
  addr_field (addr_width number width step) (mul64 (elem_pos step index (r * c)) width)
    ++ spec_cells le va number width step index c r
    ++ (if print_char then
          spec_blanks number width c r ++ separator ++ spec_chars va number width step index c r
        else [])

/-! ## Arithmetic facts -/

theorem add64_lt (a b : Nat) : add64 a b < 2 ^ 64 := Nat.mod_lt _ (by norm_num)

theorem mul64_lt (a b : Nat) : mul64 a b < 2 ^ 64 := Nat.mod_lt _ (by norm_num)

theorem sub64_one (n : Nat) (h1 : 1 ≤ n) (h2 : n < 2 ^ 64) : sub64 n 1 = n - 1 := by
  unfold sub64; omega

theorem iterate_add64 (s j b : Nat) :
    (fun x => add64 x s)^[j] b = (b + j * s) % 2 ^ 64 ∨ j = 0 := by
  induction j generalizing b with
  | zero => right; rfl
  | succ j ih =>
    left
    rw [Function.iterate_succ_apply]
    rcases ih (add64 b s) with h | h
    · rw [h]; unfold add64
      rw [Nat.add_mod, Nat.mod_mod, ← Nat.add_mod]; congr 1; ring
    · subst h; simp [add64]

theorem iterate_add64_mod (s j b : Nat) :
    (fun x => add64 x s)^[j] b % 2 ^ 64 = (b + j * s) % 2 ^ 64 := by
  rcases iterate_add64 s j b with h | h
  · rw [h, Nat.mod_mod]
  · subst h; simp

theorem dump_index_eq (step index i j : Nat) :
    dump_index step index i j = elem_pos step index (i + j) := by
  have h := iterate_add64_mod step j (add64 (mul64 i step) index)
  have hlt : dump_index step index i j < 2 ^ 64 := by
    unfold dump_index
    rcases iterate_add64 step j (add64 (mul64 i step) index) with h | h
    · rw [h]; exact Nat.mod_lt _ (by norm_num)
    · subst h; exact add64_lt _ _
  unfold dump_index at hlt ⊢
  rw [Nat.mod_eq_of_lt hlt] at h
  rw [h]
  simp only [elem_pos, add64, mul64]
  show Nat.ModEq (2 ^ 64) _ _
  have e1 : Nat.ModEq (2 ^ 64) ((i + j) * step % 2 ^ 64 + index) ((i + j) * step + index) :=
    Nat.ModEq.add_right _ (Nat.mod_modEq _ _)
  have e2 : Nat.ModEq (2 ^ 64) ((i * step % 2 ^ 64 + index) % 2 ^ 64) (i * step + index) :=
    (Nat.mod_modEq _ _).trans (Nat.ModEq.add_right _ (Nat.mod_modEq _ _))
  refine (e2.add_right (j * step)).trans (Nat.ModEq.trans ?_ e1.symm)
  have : (i + j) * step + index = i * step + index + j * step := by ring
  rw [this]

theorem dump_offset_eq (width step index i j : Nat) :
    dump_offset width step index i j = mul64 (elem_pos step index (i + j)) width := by
  have h := iterate_add64_mod (mul64 width step) j (mul64 (add64 (mul64 i step) index) width)
  have hlt : dump_offset width step index i j < 2 ^ 64 := by
    unfold dump_offset
    rcases iterate_add64 (mul64 width step) j (mul64 (add64 (mul64 i step) index) width)
      with h | h
    · rw [h]; exact Nat.mod_lt _ (by norm_num)
    · subst h; exact mul64_lt _ _
  unfold dump_offset at hlt ⊢
  rw [Nat.mod_eq_of_lt hlt] at h
  rw [h]
  simp only [elem_pos, add64, mul64]
  apply Nat.ModEq.symm
  show Nat.ModEq (2 ^ 64) _ _
  have e1 : Nat.ModEq (2 ^ 64) (((i + j) * step % 2 ^ 64 + index) % 2 ^ 64) ((i + j) * step + index) :=
    (Nat.mod_modEq _ _).trans (Nat.ModEq.add_right _ (Nat.mod_modEq _ _))
  have e2 : Nat.ModEq (2 ^ 64) ((i * step % 2 ^ 64 + index) % 2 ^ 64) (i * step + index) :=
    (Nat.mod_modEq _ _).trans (Nat.ModEq.add_right _ (Nat.mod_modEq _ _))
  have e3 : Nat.ModEq (2 ^ 64) (width * step % 2 ^ 64) (width * step) := Nat.mod_modEq _ _
  have e4 := ((Nat.mod_modEq ((i * step % 2 ^ 64 + index) % 2 ^ 64 * width) (2 ^ 64)).trans
    (e2.mul_right width)).add (e3.mul_left j)
  refine (e1.mul_right width).trans ?_
  refine Nat.ModEq.trans ?_ e4.symm
  have : ((i + j) * step + index) * width = (i * step + index) * width + j * (width * step) := by
    ring
  rw [this]

theorem size_min_eq_mod (number width step index : Nat) (hn : 1 ≤ number)
    (hn64 : number < 2 ^ 64) :
    size_min number width step index
      = ((number - 1) * (width * step) + width * (index + 1)) % 2 ^ 64 := by
  simp only [size_min, sub64_one number hn hn64, add64, mul64]
  conv_rhs => rw [Nat.add_mod, Nat.mul_mod (number - 1), Nat.mul_mod width (index + 1)]
  conv_lhs => rw [Nat.mul_mod (number - 1), Nat.mul_mod width ((index + 1) % 2 ^ 64)]
  simp [Nat.mod_mod]

theorem number_lt_of_span_lt (number width step index : Nat) (h1 : 1 ≤ width) (hs : 1 ≤ step)
    (hnw : (number - 1) * (width * step) + width * (index + 1) < 2 ^ 64) :
    number < 2 ^ 64 := by
  by_contra hc
  have h2 : 1 ≤ width * step := Nat.mul_pos h1 hs
  have h3 : (number - 1) * 1 ≤ (number - 1) * (width * step) := Nat.mul_le_mul_left _ h2
  have h4 : 1 ≤ width * (index + 1) := Nat.mul_pos h1 (by omega)
  omega

theorem size_min_exact (number width step index : Nat) (hn : 1 ≤ number) (h1 : 1 ≤ width)
    (hs : 1 ≤ step)
    (hnw : (number - 1) * (width * step) + width * (index + 1) < 2 ^ 64) :
    size_min number width step index
      = (number - 1) * (width * step) + width * (index + 1) := by
  rw [size_min_eq_mod _ _ _ _ hn (number_lt_of_span_lt _ _ _ _ h1 hs hnw)]
  exact Nat.mod_eq_of_lt hnw

theorem elem_span_le (number width step index i : Nat) (hi : i < number) :
    (i * step + index) * width + width
      ≤ (number - 1) * (width * step) + width * (index + 1) := by
  have h1 : i ≤ number - 1 := by omega
  have h2 : i * (width * step) ≤ (number - 1) * (width * step) := Nat.mul_le_mul_right _ h1
  have h3 : (i * step + index) * width + width = i * (width * step) + width * (index + 1) := by
    ring
  omega

theorem elem_pos_exact (step index i : Nat) (h : i * step + index < 2 ^ 64) :
    elem_pos step index i = i * step + index := by
  have h4 : i * step < 2 ^ 64 := by omega
  simp only [elem_pos, add64, mul64, Nat.mod_eq_of_lt h4, Nat.mod_eq_of_lt h]

theorem elem_pos_exact_of_span (number width step index i : Nat) (hi : i < number)
    (h1 : 1 ≤ width)
    (hnw : (number - 1) * (width * step) + width * (index + 1) < 2 ^ 64) :
    elem_pos step index i = i * step + index := by
  have h := elem_span_le number width step index i hi
  have h2 : (i * step + index) * 1 ≤ (i * step + index) * width := Nat.mul_le_mul_left _ h1
  exact elem_pos_exact step index i (by omega)

/-! ## C1 -/

/-- C1 (as amended): whenever `(number-1)*(width*step) + width*(index+1)` does
not exceed the 64-bit range, every byte of every element `i < number`, as
addressed by the write loop (`elem_pos`), by the hex loop of `dump_memb`
(`dump_index`) and by its character loop (`dump_offset`), lies below
`size_min`, and the last byte of element `number - 1` is byte `size_min - 1`. -/
theorem addressed_bytes_below_size_min (number width step index : Nat)
    (hw : width_ok width) (hs : 1 ≤ step) (hn : 1 ≤ number)
    (hnw : (number - 1) * (width * step) + width * (index + 1) < 2 ^ 64) :
    (∀ i k, i < number → k < width →
        elem_pos step index i * width + k < size_min number width step index)
    ∧ (∀ i j k, i + j < number → k < width →
        dump_index step index i j * width + k < size_min number width step index
        ∧ k + dump_offset width step index i j < size_min number width step index)
    ∧ elem_pos step index (number - 1) * width + (width - 1)
        = size_min number width step index - 1 := by
  have h1 : 1 ≤ width := by unfold width_ok at hw; omega
  have hsm := size_min_exact number width step index hn h1 hs hnw
  have key : ∀ i k, i < number → k < width →
      elem_pos step index i * width + k < size_min number width step index := by
    intro i k hi hk
    rw [elem_pos_exact_of_span number width step index i hi h1 hnw, hsm]
    have := elem_span_le number width step index i hi
    omega
  refine ⟨key, ?_, ?_⟩
  · intro i j k hij hk
    have hk1 := key (i + j) k hij hk
    rw [dump_index_eq, dump_offset_eq]
    refine ⟨hk1, ?_⟩
    have hlt : elem_pos step index (i + j) * width < 2 ^ 64 := by
      rw [hsm] at hk1; omega
    rw [mul64, Nat.mod_eq_of_lt hlt]; omega
  · rw [elem_pos_exact_of_span number width step index (number - 1) (by omega) h1 hnw, hsm]
    have : ((number - 1) * step + index) * width + width
        = (number - 1) * (width * step) + width * (index + 1) := by ring
    omega

/-- C1, an instance: width 4, step 3, index 2, number 5. -/
theorem addressed_bytes_below_size_min_witness :
    (width_ok 4 ∧ 1 ≤ 3 ∧ 1 ≤ 5 ∧ (5 - 1) * (4 * 3) + 4 * (2 + 1) < 2 ^ 64)
    ∧ ((∀ i k, i < 5 → k < 4 → elem_pos 3 2 i * 4 + k < size_min 5 4 3 2)
      ∧ (∀ i j k, i + j < 5 → k < 4 →
          dump_index 3 2 i j * 4 + k < size_min 5 4 3 2
          ∧ k + dump_offset 4 3 2 i j < size_min 5 4 3 2)
      ∧ elem_pos 3 2 (5 - 1) * 4 + (4 - 1) = size_min 5 4 3 2 - 1) :=
  ⟨⟨by decide, by decide, by decide, by norm_num⟩,
   addressed_bytes_below_size_min 5 4 3 2 (by decide) (by decide) (by decide) (by norm_num)⟩

/-- C1 as stated fails: with width 1, step `2 ^ 63`, index 0 and number 3 the
value of `size_min` wraps around to 1, and the byte of element 1 that the
write loop addresses is at offset `2 ^ 63`. -/
theorem addressed_byte_beyond_size_min :
    width_ok 1 ∧ 1 ≤ 2 ^ 63 ∧ 0 < 2 ^ 63 ∧ 1 ≤ 3 ∧ 1 < 3
    ∧ size_min 3 1 (2 ^ 63) 0 = 1
    ∧ elem_pos (2 ^ 63) 0 1 * 1 + 0 = 2 ^ 63
    ∧ ¬ (elem_pos (2 ^ 63) 0 1 * 1 + 0 < size_min 3 1 (2 ^ 63) 0) := by
  decide
/-! ## C2 -/

theorem main_size_eq (size number width step : Nat) (hsz : size < 2 ^ 64) :
    main_size size number width step
      = (if size = 0 then number * (width * step) % 2 ^ 64 else size)
        - (if size = 0 then number * (width * step) % 2 ^ 64 else size) % width := by
  have hm : mul64 number (mul64 width step) = number * (width * step) % 2 ^ 64 := by
    simp only [mul64]
    rw [Nat.mul_mod, Nat.mod_mod, ← Nat.mul_mod]
  simp only [main_size, hm]
  generalize hs : (if size = 0 then number * (width * step) % 2 ^ 64 else size) = s
  have hs64 : s < 2 ^ 64 := by
    rw [← hs]; split
    · exact Nat.mod_lt _ (by norm_num)
    · exact hsz
  have hle : s % width ≤ s := Nat.mod_le _ _
  split
  · unfold sub64; omega
  · omega

theorem main_size_le (size number width step : Nat) (hsz : size < 2 ^ 64) (h0 : size ≠ 0) :
    main_size size number width step ≤ size := by
  rw [main_size_eq size number width step hsz]
  simp only [h0, if_false]
  omega

/-- C2 (as amended): for 64-bit inputs with `number >= 1`, the parameter check
of `main` rejects exactly when `index >= step` or the resolved `size` (derived
as `number*(width*step)` when omitted, then rounded down to a multiple of
`width`) is below `size_min`, where `size_min` is the unsigned 64-bit value of
`(number-1)*(width*step) + width*(index+1)`: that expression modulo `2^64`,
hence the exact value whenever the exact value is below `2^64`.  `index = step`
and `step = 0` are always rejected, and so is every supplied size below this
`size_min`. -/
theorem check_params_rejects_iff (width step index number size : Nat)
    (hn1 : 1 ≤ number) (hn : number < 2 ^ 64) (hsz : size < 2 ^ 64) :
    ((∃ e, check_params width step index number size = .error e) ↔
        (index ≥ step ∨
          main_size size number width step < size_min number width step index))
    ∧ size_min number width step index
        = ((number - 1) * (width * step) + width * (index + 1)) % 2 ^ 64
    ∧ ((number - 1) * (width * step) + width * (index + 1) < 2 ^ 64 →
        size_min number width step index
          = (number - 1) * (width * step) + width * (index + 1))
    ∧ main_size size number width step
        = (if size = 0 then number * (width * step) % 2 ^ 64 else size)
          - (if size = 0 then number * (width * step) % 2 ^ 64 else size) % width
    ∧ (index = step → check_params width step index number size = .error .index_ge_step)
    ∧ (step = 0 → check_params width step index number size = .error .index_ge_step)
    ∧ (size ≠ 0 → size < size_min number width step index →
        ∃ e, check_params width step index number size = .error e) := by
  have hiff : (∃ e, check_params width step index number size = .error e) ↔
      (index ≥ step ∨
        main_size size number width step < size_min number width step index) := by
    unfold check_params
    by_cases h1 : index ≥ step
    · simp [h1]
    · by_cases h2 : main_size size number width step < size_min number width step index
      · simp [h1, h2]
      · simp [h1, h2]
  have hmod := size_min_eq_mod number width step index hn1 hn
  refine ⟨hiff, hmod, ?_, main_size_eq size number width step hsz, ?_, ?_, ?_⟩
  · intro h; rw [hmod]; exact Nat.mod_eq_of_lt h
  · intro h; simp [check_params, h]
  · intro h; simp [check_params, h]
  · intro h0 hlt
    exact hiff.mpr (Or.inr (lt_of_le_of_lt (main_size_le size number width step hsz h0) hlt))

/-- C2, an instance: width 2, step 3, index 1, number 4 and the odd size 23,
which is rounded down to 22 and meets `size_min = 22`. -/
theorem check_params_rejects_iff_witness :
    (1 ≤ 4 ∧ 4 < 2 ^ 64 ∧ 23 < 2 ^ 64)
    ∧ check_params 2 3 1 4 23 = .ok (22, 22)
    ∧ (((∃ e, check_params 2 3 1 4 23 = .error e) ↔
          (1 ≥ 3 ∨ main_size 23 4 2 3 < size_min 4 2 3 1))
      ∧ size_min 4 2 3 1 = ((4 - 1) * (2 * 3) + 2 * (1 + 1)) % 2 ^ 64
      ∧ ((4 - 1) * (2 * 3) + 2 * (1 + 1) < 2 ^ 64 →
          size_min 4 2 3 1 = (4 - 1) * (2 * 3) + 2 * (1 + 1))
      ∧ main_size 23 4 2 3
          = (if 23 = 0 then 4 * (2 * 3) % 2 ^ 64 else 23)
            - (if 23 = 0 then 4 * (2 * 3) % 2 ^ 64 else 23) % 2
      ∧ (1 = 3 → check_params 2 3 1 4 23 = .error .index_ge_step)
      ∧ (3 = 0 → check_params 2 3 1 4 23 = .error .index_ge_step)
      ∧ (23 ≠ 0 → 23 < size_min 4 2 3 1 →
          ∃ e, check_params 2 3 1 4 23 = .error e)) :=
  ⟨by norm_num, rfl,
   check_params_rejects_iff 2 3 1 4 23 (by norm_num) (by norm_num) (by norm_num)⟩

/-- C2 as stated fails: with width 1, step `2 ^ 63`, index 0 and number 3 the
exact value of `(number-1)*(width*step) + width*(index+1)` is `2 ^ 64 + 1`,
the program computes `size_min = 1`, and the size 2, which is below the exact
value, is accepted. -/
theorem size_below_exact_min_accepted :
    width_ok 1 ∧ 0 < 2 ^ 63 ∧ 1 ≤ 3
    ∧ (3 - 1) * (1 * 2 ^ 63) + 1 * (0 + 1) = 2 ^ 64 + 1
    ∧ size_min 3 1 (2 ^ 63) 0 = 1
    ∧ size_min 3 1 (2 ^ 63) 0 ≠ (3 - 1) * (1 * 2 ^ 63) + 1 * (0 + 1)
    ∧ 2 < (3 - 1) * (1 * 2 ^ 63) + 1 * (0 + 1)
    ∧ check_params 1 (2 ^ 63) 0 3 2 = .ok (2, 1) := by
  refine ⟨by decide, by decide, by decide, by decide, by decide, by decide, by decide, rfl⟩

/-! ## Typed element access -/

theorem to_bytes_le_length (w v : Nat) : (to_bytes_le w v).length = w := by
  induction w generalizing v with
  | zero => rfl
  | succ w ih => simp [to_bytes_le, ih]

theorem to_bytes_le_lt (w v : Nat) : ∀ b ∈ to_bytes_le w v, b < 256 := by
  induction w generalizing v with
  | zero => simp [to_bytes_le]
  | succ w ih =>
    intro b hb
    simp only [to_bytes_le, List.mem_cons] at hb
    rcases hb with rfl | hb
    · exact Nat.mod_lt _ (by norm_num)
    · exact ih _ b hb

theorem from_to_bytes_le (w v : Nat) : from_bytes_le (to_bytes_le w v) = v % 256 ^ w := by
  induction w generalizing v with
  | zero => simp [to_bytes_le, from_bytes_le, Nat.mod_one]
  | succ w ih =>
    simp only [to_bytes_le, from_bytes_le, ih]
    rw [pow_succ, Nat.mul_comm (256 ^ w) 256, Nat.mod_mul]

theorem host_encode_length (le : Bool) (w v : Nat) : (host_encode le w v).length = w := by
  unfold host_encode; split <;> simp [to_bytes_le_length]

theorem host_encode_lt (le : Bool) (w v : Nat) : ∀ b ∈ host_encode le w v, b < 256 := by
  intro b hb
  unfold host_encode at hb
  split at hb
  · exact to_bytes_le_lt w v b hb
  · exact to_bytes_le_lt w v b (List.mem_reverse.mp hb)

theorem host_decode_encode (le : Bool) (w v : Nat) :
    host_decode le (host_encode le w v) = v % 256 ^ w := by
  unfold host_decode host_encode
  cases le <;> simp [from_to_bytes_le]

theorem elem_value_store_same (le : Bool) (va : Mem) (w pos v : Nat) :
    elem_value le (store_bytes le va w pos v) w pos = v % 256 ^ w := by
  have hmap : ((List.range w).map fun k =>
        store_bytes le va w pos v (elem_offset w pos + k) % 256)
      = host_encode le w v := by
    apply List.ext_getElem
    · simp [host_encode_length]
    · intro k h1 h2
      simp only [List.length_map, List.length_range] at h1
      simp only [List.getElem_map, List.getElem_range, store_bytes]
      have hc : elem_offset w pos ≤ elem_offset w pos + k
          ∧ elem_offset w pos + k < elem_offset w pos + w := ⟨by omega, by omega⟩
      rw [if_pos hc]
      have hk : elem_offset w pos + k - elem_offset w pos = k := by omega
      rw [hk, List.getD_eq_getElem _ _ h2]
      exact Nat.mod_eq_of_lt (host_encode_lt le w v _ (List.getElem_mem _))
  unfold elem_value
  rw [hmap, host_decode_encode]

theorem elem_value_store_other (le : Bool) (va : Mem) (w pos pos1 v : Nat)
    (hd : elem_offset w pos1 + w ≤ elem_offset w pos
      ∨ elem_offset w pos + w ≤ elem_offset w pos1) :
    elem_value le (store_bytes le va w pos v) w pos1 = elem_value le va w pos1 := by
  unfold elem_value
  congr 1
  apply List.map_congr_left
  intro k hk
  have hk1 : k < w := List.mem_range.mp hk
  simp only [store_bytes]
  have hc : ¬ (elem_offset w pos ≤ elem_offset w pos1 + k
      ∧ elem_offset w pos1 + k < elem_offset w pos + w) := by
    intro ⟨h1, h2⟩
    omega
  rw [if_neg hc]

/-- The write loop in a mapping that holds every addressed element, the
elements lying apart from each other: it completes, and each element then
holds its buffer value. -/
theorem write_loop_values (le : Bool) (len width step index : Nat) (buf : List Nat) (va : Mem)
    (hw : width_ok width) (n : Nat)
    (hmap : ∀ i, i < n → elem_offset width (elem_pos step index i) + width ≤ len)
    (hdisj : ∀ i j, i < n → j < n → i < j →
      elem_offset width (elem_pos step index i) + width
        ≤ elem_offset width (elem_pos step index j)
      ∨ elem_offset width (elem_pos step index j) + width
        ≤ elem_offset width (elem_pos step index i)) :
    ∃ m, write_loop le len width step index buf va n = some m
      ∧ ∀ i, i < n → elem_value le m width (elem_pos step index i)
          = buf.getD i 0 % 256 ^ width := by
  induction n with
  | zero => exact ⟨va, rfl, fun i hi => by omega⟩
  | succ n ih =>
    obtain ⟨m, hm, hval⟩ := ih (fun i hi => hmap i (by omega))
      (fun i j hi hj hij => hdisj i j (by omega) (by omega) hij)
    refine ⟨store_bytes le m width (elem_pos step index n) (buf.getD n 0), ?_, ?_⟩
    · simp only [write_loop, hm, if_pos hw, store_elem, if_pos (hmap n (by omega))]
    · intro i hi
      by_cases hin : i = n
      · subst hin; exact elem_value_store_same le m width _ _
      · have hlt : i < n := by omega
        rw [elem_value_store_other le m width _ _ _
          (hdisj i n (by omega) (by omega) hlt)]
        exact hval i hlt

theorem elem_offset_exact (number width step index i : Nat) (hi : i < number) (h1 : 1 ≤ width)
    (hnw : (number - 1) * (width * step) + width * (index + 1) < 2 ^ 64) :
    elem_offset width (elem_pos step index i) = (i * step + index) * width := by
  have h := elem_span_le number width step index i hi
  rw [elem_offset, elem_pos_exact_of_span number width step index i hi h1 hnw]
  exact Nat.mod_eq_of_lt (by omega)

/-- Without wrap-around every addressed element lies inside a mapping of at
least `size_min` bytes. -/
theorem elem_mapped_of_no_wrap (number width step index len i : Nat) (hi : i < number)
    (h1 : 1 ≤ width) (hs : 1 ≤ step)
    (hnw : (number - 1) * (width * step) + width * (index + 1) < 2 ^ 64)
    (hlen : size_min number width step index ≤ len) :
    elem_offset width (elem_pos step index i) + width ≤ len := by
  have h := elem_span_le number width step index i hi
  rw [elem_offset_exact number width step index i hi h1 hnw]
  rw [size_min_exact number width step index (by omega) h1 hs hnw] at hlen
  omega

/-- Without wrap-around distinct elements lie apart. -/
theorem elem_disjoint_of_no_wrap (number width step index i j : Nat) (hi : i < number)
    (hj : j < number) (hij : i < j) (h1 : 1 ≤ width) (hs : 1 ≤ step)
    (hnw : (number - 1) * (width * step) + width * (index + 1) < 2 ^ 64) :
    elem_offset width (elem_pos step index i) + width
      ≤ elem_offset width (elem_pos step index j) := by
  rw [elem_offset_exact number width step index i hi h1 hnw,
    elem_offset_exact number width step index j hj h1 hnw]
  have h2 : (i + 1) * step ≤ j * step := Nat.mul_le_mul_right _ hij
  have h3 : i * step + index + 1 ≤ j * step + index := by
    have : (i + 1) * step = i * step + step := by ring
    omega
  have h4 := Nat.mul_le_mul_right width h3
  have : (i * step + index + 1) * width = (i * step + index) * width + width := by ring
  omega

/-! ## C3 -/

/-- C3 (as amended): whenever `(number-1)*(width*step) + width*(index+1)` does
not exceed the 64-bit range (no wrap-around in `size_min`, the element
positions or their addresses), for every host byte order, every width in
{1,2,4,8}, `step >= 1`, every buffer of `number` elements each below
`256^width`, every mapping of at least `size_min` bytes and every prior
content, the write loop completes, and the element then read at the position
`dump_memb` uses for element `i + j` of the row starting at `i` (which is the
position `(i+j)*step + index` the write loop used) is `buf[i + j]`. -/
theorem write_then_read_back (le : Bool) (len : Nat) (va : Mem)
    (width step index number : Nat) (buf : List Nat) (hw : width_ok width) (hs : 1 ≤ step)
    (hlen : buf.length = number) (hbuf : ∀ v ∈ buf, v < 256 ^ width)
    (hnw : (number - 1) * (width * step) + width * (index + 1) < 2 ^ 64)
    (hmapped : size_min number width step index ≤ len) :
    ∃ m, write_loop le len width step index buf va number = some m
      ∧ ∀ i j, i + j < number →
          load_elem le len m width (dump_index step index i j) = some (buf.getD (i + j) 0)
          ∧ dump_index step index i j = (i + j) * step + index := by
  have h1 : 1 ≤ width := by unfold width_ok at hw; omega
  obtain ⟨m, hm, hval⟩ := write_loop_values le len width step index buf va hw number
    (fun i hi => elem_mapped_of_no_wrap number width step index len i hi h1 hs hnw hmapped)
    (fun i j hi hj hij =>
      Or.inl (elem_disjoint_of_no_wrap number width step index i j hi hj hij h1 hs hnw))
  refine ⟨m, hm, ?_⟩
  intro i j hij
  rw [dump_index_eq]
  refine ⟨?_, elem_pos_exact_of_span number width step index (i + j) hij h1 hnw⟩
  unfold load_elem
  rw [if_pos (elem_mapped_of_no_wrap number width step index len (i + j) hij h1 hs hnw
    hmapped), hval (i + j) hij]
  congr 1
  apply Nat.mod_eq_of_lt
  apply hbuf
  rw [List.getD_eq_getElem _ _ (by omega)]
  exact List.getElem_mem _

/-- C3, an instance: two 16-bit elements written at step 2, index 1 on a
little-endian host, in the 8 bytes that `main` maps. -/
theorem write_then_read_back_witness :
    (width_ok 2 ∧ 1 ≤ 2 ∧ [0x1234, 0xabcd].length = 2 ∧ (∀ v ∈ [0x1234, 0xabcd], v < 256 ^ 2)
      ∧ (2 - 1) * (2 * 2) + 2 * (1 + 1) < 2 ^ 64 ∧ size_min 2 2 2 1 ≤ 8)
    ∧ ∃ m, write_loop true 8 2 2 1 [0x1234, 0xabcd] (fun _ => 0) 2 = some m
      ∧ ∀ i j, i + j < 2 →
          load_elem true 8 m 2 (dump_index 2 1 i j) = some ([0x1234, 0xabcd].getD (i + j) 0)
          ∧ dump_index 2 1 i j = (i + j) * 2 + 1 :=
  ⟨⟨by decide, by norm_num, rfl, by decide, by norm_num, by decide⟩,
   write_then_read_back true 8 (fun _ => 0) 2 2 1 2 [0x1234, 0xabcd] (by decide) (by norm_num)
     rfl (by decide) (by norm_num) (by decide)⟩

/-- C3 as stated fails: `-w 8 -t 0x2000000000000000 -n 3 -s 8` passes the
parameter check with `size_min = 8`; the byte address `pos * 8` of each of
the positions 0, `2^61` and `2^62` wraps around to 0, so the three elements
are stored on top of each other inside the 8 mapped bytes, and every one of
them reads back as `buf[2] = 3`. -/
theorem read_back_differs :
    width_ok 8 ∧ 1 ≤ 2 ^ 61 ∧ 0 < 2 ^ 61 ∧ 1 ≤ 3
    ∧ [1, 2, 3].length = 3 ∧ (∀ v ∈ [1, 2, 3], v < 256 ^ 8)
    ∧ check_params 8 (2 ^ 61) 0 3 8 = .ok (8, 8)
    ∧ (match write_loop true 8 8 (2 ^ 61) 0 [1, 2, 3] (fun _ => 0) 3 with
        | none => []
        | some m => (List.range 3).map fun i => load_elem true 8 m 8 (elem_pos (2 ^ 61) 0 i))
        = [some 3, some 3, some 3]
    ∧ [1, 2, 3].getD 0 0 ≠ 3 := by
  refine ⟨by decide, by decide, by decide, by decide, rfl, by decide, rfl, ?_, by decide⟩
  decide

/-! ## C4 -/

/-- C4, the code at the failing input `-n 1` with the tokens `1 zz` (and
`1 2`): for every `strtoull` that reads `1` and `2` as numbers and stops at
the first character of `zz`, the list cut to its first token loads as `[1]`,
while the full list fails on the extra token, which is parsed (`zz`) or
stored past the one-element buffer (`2`). -/
theorem extra_literal_not_ignored (strtoull : String → Nat × String)
    (h1 : strtoull "1" = (1, "")) (h2 : strtoull "2" = (2, ""))
    (hz : strtoull "zz" = (0, "zz")) :
    load_literals strtoull 1 1 (["1", "zz"].take 1) = .ok [1]
    ∧ load_literals strtoull 1 1 ["1", "zz"] = .error (.invalid_literal 1)
    ∧ load_literals strtoull 1 1 (["1", "2"].take 1) = .ok [1]
    ∧ load_literals strtoull 1 1 ["1", "2"] = .error (.store_past_buffer 1) := by
  simp [load_literals, literal_loop, h1, h2, hz, width_ok]

/-- C4, the failing input with a concrete scanner for the three tokens. -/
theorem extra_literal_not_ignored_witness :
    ((fun s => if s = "1" then (1, "") else if s = "2" then (2, "") else (0, s)) "1" = (1, "")
      ∧ (fun s => if s = "1" then (1, "") else if s = "2" then (2, "") else (0, s)) "2"
          = (2, "")
      ∧ (fun s => if s = "1" then (1, "") else if s = "2" then (2, "") else (0, s)) "zz"
          = (0, "zz"))
    ∧ load_literals (fun s => if s = "1" then (1, "") else if s = "2" then (2, "") else (0, s))
        1 1 ["1", "zz"] = .error (.invalid_literal 1) :=
  ⟨⟨by decide, by decide, by decide⟩,
   (extra_literal_not_ignored
      (fun s => if s = "1" then (1, "") else if s = "2" then (2, "") else (0, s))
      (by decide) (by decide) (by decide)).2.1⟩

/-! ## C5 -/

/-- C5, the code at the failing input width 1, step 2, index 0, number 2 and a
source file of `number * width = 2` bytes: the parameters pass the check of
`main`, `size_min` is 3, and the loader rejects the file as too small. -/
theorem bin_file_of_number_times_width_rejected (le : Bool) :
    check_params 1 2 0 2 0 = .ok (4, 3)
    ∧ size_min 2 1 2 0 = 3
    ∧ [0xaa, 0xbb].length = 2 * 1
    ∧ load_bin le 1 2 (size_min 2 1 2 0) [0xaa, 0xbb] = .error .file_too_small := by
  refine ⟨rfl, rfl, rfl, ?_⟩
  cases le <;> rfl

/-! ## `count_valid_bit` -/

theorem and_mask_eq_zero_iff (n : Nat) (hn : n < 2 ^ 64) : n &&& 2 ^ 63 = 0 ↔ n < 2 ^ 63 := by
  rw [Nat.and_two_pow]
  have ht := @Nat.testBit_to_div_mod 63 n
  cases hb : n.testBit 63
  · rw [hb] at ht
    have : ¬ (n / 2 ^ 63 % 2 = 1) := by simpa using ht.symm
    simp only [Bool.toNat_false, zero_mul, true_iff]
    omega
  · rw [hb] at ht
    have : n / 2 ^ 63 % 2 = 1 := by simpa using ht.symm
    simp only [Bool.toNat_true, one_mul]
    constructor
    · intro h; norm_num at h
    · intro h; omega

theorem size_double (n : Nat) (h : n ≠ 0) : Nat.size (n * 2) = Nat.size n + 1 := by
  have := Nat.size_shiftLeft h 1
  rwa [Nat.shiftLeft_eq, pow_one] at this

theorem count_valid_bit_loop_eq (fuel n count : Nat) (h0 : 0 < n) (hn : n < 2 ^ 64)
    (hf : 64 ≤ Nat.size n + fuel) :
    count_valid_bit_loop fuel n count = count - (64 - Nat.size n) := by
  have hs64 : Nat.size n ≤ 64 := Nat.size_le.mpr hn
  induction fuel generalizing n count with
  | zero =>
    have : Nat.size n = 64 := by omega
    simp [count_valid_bit_loop, this]
  | succ fuel ih =>
    unfold count_valid_bit_loop
    by_cases hm : n &&& 2 ^ 63 = 0
    · rw [if_pos hm]
      have hlt : n < 2 ^ 63 := (and_mask_eq_zero_iff n hn).mp hm
      have hs63 : Nat.size n ≤ 63 := Nat.size_le.mpr hlt
      have h2 : n * 2 < 2 ^ 64 := by omega
      rw [Nat.mod_eq_of_lt h2]
      have hsd := size_double n (by omega)
      rw [ih (n * 2) (count - 1) (by omega) h2 (by omega) (by omega), hsd]
      omega
    · rw [if_neg hm]
      have hge : ¬ n < 2 ^ 63 := fun h => hm ((and_mask_eq_zero_iff n hn).mpr h)
      have : ¬ Nat.size n ≤ 63 := fun h => hge (Nat.size_le.mp h)
      omega

theorem count_valid_bit_eq_size (n : Nat) (hn : n < 2 ^ 64) : count_valid_bit n = Nat.size n := by
  unfold count_valid_bit
  by_cases h0 : n = 0
  · simp [h0]
  · rw [if_neg h0, count_valid_bit_loop_eq 64 n 64 (by omega) hn (by omega)]
    have : Nat.size n ≤ 64 := Nat.size_le.mpr hn
    omega

theorem sub64_lt (a b : Nat) : sub64 a b < 2 ^ 64 := Nat.mod_lt _ (by norm_num)

theorem dump_size_eq (number width step : Nat) :
    dump_size number width step = number * (width * step) % 2 ^ 64 := by
  simp only [dump_size, mul64]
  rw [Nat.mul_mod, Nat.mod_mod, ← Nat.mul_mod]

theorem addr_width_eq_size (number width step : Nat) :
    addr_width number width step
      = max 1 ((Nat.size (sub64 (dump_size number width step) 1) + 3) / 4) := by
  unfold addr_width
  rw [count_valid_bit_eq_size _ (sub64_lt _ _)]
  generalize Nat.size (sub64 (dump_size number width step) 1) = b
  show (if (if b % 4 ≠ 0 then b / 4 + 1 else b / 4) = 0 then 1
        else (if b % 4 ≠ 0 then b / 4 + 1 else b / 4)) = max 1 ((b + 3) / 4)
  by_cases h4 : b % 4 ≠ 0
  · rw [if_pos h4, if_neg (by omega)]
    have : (b + 3) / 4 = b / 4 + 1 := by omega
    rw [this]; omega
  · rw [if_neg h4]
    have : (b + 3) / 4 = b / 4 := by omega
    rw [this]
    split_ifs <;> omega

/-! ## C6 -/

/-- C6 (as amended): the address-field width of `dump_memb` is computed from
`size - 1` with `size = number * (width * step)` (64-bit): it equals
`max(1, ceil(b/4))` for the bit length `b` of that value, and it is 1 whenever
`1 <= size <= 16`. -/
theorem addr_width_from_dump_size (number width step : Nat) :
    addr_width number width step
      = max 1 ((Nat.size (sub64 (dump_size number width step) 1) + 3) / 4)
    ∧ dump_size number width step = number * (width * step) % 2 ^ 64
    ∧ (1 ≤ dump_size number width step → dump_size number width step ≤ 16 →
        addr_width number width step = 1) := by
  refine ⟨addr_width_eq_size number width step, dump_size_eq number width step, ?_⟩
  intro h1 h16
  rw [addr_width_eq_size]
  have hs : sub64 (dump_size number width step) 1 < 2 ^ 4 := by
    unfold sub64; omega
  have := Nat.size_le.mpr hs
  omega

/-- C6, an instance: sixteen bytes at width 1, step 1. -/
theorem addr_width_from_dump_size_witness :
    (1 ≤ dump_size 16 1 1 ∧ dump_size 16 1 1 ≤ 16) ∧ addr_width 16 1 1 = 1 :=
  ⟨by decide,
   (addr_width_from_dump_size 16 1 1).2.2 (by decide) (by decide)⟩

/-- C6 as stated fails: with width 1, step 17, index 0 and number 1,
`size_min` is 1 (so `size_min - 1 = 0`, whose bit length is 0 and for which
the claim gives width 1), but `dump_memb` uses the width 2 of
`number * (width * step) - 1 = 16`. -/
theorem addr_width_not_from_size_min :
    width_ok 1 ∧ 1 ≤ 17 ∧ 0 < 17 ∧ 1 ≤ 1
    ∧ size_min 1 1 17 0 = 1 ∧ size_min 1 1 17 0 ≤ 16
    ∧ max 1 ((Nat.size (size_min 1 1 17 0 - 1) + 3) / 4) = 1
    ∧ addr_width 1 1 17 = 2
    ∧ addr_width 1 1 17 ≠ 1 := by
  refine ⟨by decide, by decide, by decide, by decide, by decide, by decide, ?_, by decide,
    by decide⟩
  have : size_min 1 1 17 0 - 1 = 0 := by decide
  rw [this, Nat.size_zero]; decide

/-! ## C7 -/

/-- C7 (as amended): the address width is monotonically non-decreasing in the
64-bit value `size = number * (width * step)` that `dump_memb` computes: for
two parameter sets with `1 <= size_1 <= size_2` the first address width is at
most the second. -/
theorem addr_width_mono (number1 width1 step1 number2 width2 step2 : Nat)
    (h1 : 1 ≤ dump_size number1 width1 step1)
    (h12 : dump_size number1 width1 step1 ≤ dump_size number2 width2 step2) :
    addr_width number1 width1 step1 ≤ addr_width number2 width2 step2 := by
  rw [addr_width_eq_size, addr_width_eq_size]
  have hd2 : dump_size number2 width2 step2 < 2 ^ 64 := mul64_lt _ _
  have hle : sub64 (dump_size number1 width1 step1) 1
      ≤ sub64 (dump_size number2 width2 step2) 1 := by
    unfold sub64; omega
  have := Nat.size_le_size hle
  omega

/-- C7, an instance: 16 bytes against 17 bytes. -/
theorem addr_width_mono_witness :
    (1 ≤ dump_size 16 1 1 ∧ dump_size 16 1 1 ≤ dump_size 17 1 1)
    ∧ addr_width 16 1 1 ≤ addr_width 17 1 1 :=
  ⟨by decide, addr_width_mono 16 1 1 17 1 1 (by decide) (by decide)⟩

/-- C7 as stated fails: (width 1, step 17, index 0, number 1) has
`size_min = 1` and address width 2, while (width 1, step 1, index 0,
number 2) has the larger `size_min = 2` and address width 1. -/
theorem addr_width_not_mono_in_size_min :
    (0 < 17 ∧ 0 < 1)
    ∧ size_min 1 1 17 0 = 1 ∧ size_min 2 1 1 0 = 2
    ∧ size_min 1 1 17 0 ≤ size_min 2 1 1 0
    ∧ addr_width 1 1 17 = 2 ∧ addr_width 2 1 1 = 1
    ∧ ¬ (addr_width 1 1 17 ≤ addr_width 2 1 1) := by
  decide

/-! ## The binary source -/

theorem from_bytes_le_append (xs ys : List Nat) :
    from_bytes_le (xs ++ ys) = from_bytes_le xs + 256 ^ xs.length * from_bytes_le ys := by
  induction xs with
  | nil => simp [from_bytes_le]
  | cons x xs ih =>
    show x + 256 * from_bytes_le (xs ++ ys)
      = x + 256 * from_bytes_le xs + 256 ^ (xs.length + 1) * from_bytes_le ys
    rw [ih, pow_succ]
    ring

theorem to_from_bytes_le (t : List Nat) (ht : ∀ b ∈ t, b < 256) :
    to_bytes_le t.length (from_bytes_le t) = t := by
  induction t with
  | nil => rfl
  | cons b bs ih =>
    have hb : b < 256 := ht b (List.mem_cons_self _ _)
    have hbs : ∀ x ∈ bs, x < 256 := fun x hx => ht x (List.mem_cons_of_mem _ hx)
    simp only [List.length_cons, to_bytes_le, from_bytes_le]
    have h1 : (b + 256 * from_bytes_le bs) % 256 = b := by omega
    have h2 : (b + 256 * from_bytes_le bs) / 256 = from_bytes_le bs := by omega
    rw [h1, h2, ih hbs]

theorem from_bytes_le_reverse_eq_sum (t : List Nat) :
    from_bytes_le t.reverse
      = ((List.range t.length).map fun k => t.getD k 0 * 256 ^ (t.length - 1 - k)).sum := by
  induction t with
  | nil => rfl
  | cons b bs ih =>
    rw [List.reverse_cons, from_bytes_le_append, ih, List.length_cons, List.range_succ_eq_map,
      List.map_cons, List.sum_cons, List.map_map]
    simp only [from_bytes_le, List.length_reverse, List.getD_cons_zero, Nat.mul_zero,
      Nat.add_zero]
    have hmap : (List.map ((fun k => (b :: bs).getD k 0 * 256 ^ (bs.length + 1 - 1 - k))
          ∘ Nat.succ) (List.range bs.length))
        = List.map (fun k => bs.getD k 0 * 256 ^ (bs.length - 1 - k)) (List.range bs.length) := by
      apply List.map_congr_left
      intro k hk
      have hk1 : k < bs.length := List.mem_range.mp hk
      simp only [Function.comp, List.getD_cons_succ]
      congr 2
      omega
    rw [hmap]
    simp only [Nat.add_sub_cancel, Nat.sub_zero]
    ring

theorem decode_chunk_eq (le : Bool) (width : Nat) (t : List Nat)
    (hlen : t.length = width) (ht : ∀ b ∈ t, b < 256) :
    decode_chunk le width t = from_bytes_le t.reverse := by
  unfold decode_chunk
  by_cases h1 : width = 1
  · rw [if_pos h1]
    match t, hlen with
    | [b], _ => simp [from_bytes_le]
    | [], h => simp at h; omega
    | _ :: _ :: _, h => simp at h; omega
  · rw [if_neg h1]
    unfold betoh host_decode
    cases le
    · simp
    · simp only [if_true]
      rw [← hlen, to_from_bytes_le t ht]

/-- What the read loop leaves in the buffer: elements `i .. i + todo - 1` hold
the decoded chunks of `rest`, all others are untouched. -/
theorem bin_loop_spec (le : Bool) (width : Nat) (hw : width_ok width) (todo : Nat) :
    ∀ (i : Nat) (rest buf : List Nat), todo * width ≤ rest.length → i + todo ≤ buf.length →
      ∃ out, bin_loop le width todo i rest buf = .ok out ∧ out.length = buf.length
        ∧ ∀ j, out.getD j 0 =
            if i ≤ j ∧ j < i + todo then
              decode_chunk le width (((rest.drop ((j - i) * width)).take width).map (· % 256))
            else buf.getD j 0 := by
  induction todo with
  | zero =>
    intro i rest buf _ _
    refine ⟨buf, rfl, rfl, ?_⟩
    intro j
    rw [if_neg (by omega)]
  | succ todo ih =>
    intro i rest buf hrest hbuf
    have hwl : width ≤ rest.length := by
      have : (todo + 1) * width = todo * width + width := by ring
      omega
    have htl : ((rest.take width).map (· % 256)).length = width := by
      simp [List.length_take, hwl]
    unfold bin_loop
    simp only [htl, ne_eq, not_true_eq_false, if_false, if_pos hw]
    have hrest1 : todo * width ≤ (rest.drop width).length := by
      have : (todo + 1) * width = todo * width + width := by ring
      rw [List.length_drop]; omega
    obtain ⟨out, hout, hlen, hget⟩ := ih (i + 1) (rest.drop width)
      (buf.set i (decode_chunk le width ((rest.take width).map (· % 256)))) hrest1
      (by rw [List.length_set]; omega)
    refine ⟨out, hout, by rw [hlen, List.length_set], ?_⟩
    intro j
    rw [hget j]
    by_cases hji : j = i
    · subst hji
      rw [if_neg (by omega), if_pos (by omega)]
      simp only [Nat.sub_self, Nat.zero_mul, List.drop_zero]
      rw [List.getD_eq_getElem _ _ (by rw [List.length_set]; omega), List.getElem_set_self]
    · by_cases hin : i + 1 ≤ j ∧ j < i + 1 + todo
      · rw [if_pos hin, if_pos (by omega), List.drop_drop]
        have : width + (j - (i + 1)) * width = (j - i) * width := by
          have : j - i = (j - (i + 1)) + 1 := by omega
          rw [this]; ring
        rw [this]
      · rw [if_neg hin, if_neg (by omega)]
        simp only [List.getD_eq_getElem?_getD]
        rw [List.getElem?_set_ne (fun h => hji h.symm)]

/-! ## C10 -/

/-- C10: for every host byte order and every width in {1,2,4,8}, a source file
of bytes that passes the size check and holds at least `number * width` bytes
is loaded successfully, and element `i` of the buffer is the big-endian value
`sum over k of b_k * 256^(width-1-k)` of the bytes `b_0 .. b_(width-1)` of
the `i`-th chunk of the file. -/
theorem load_bin_big_endian (le : Bool) (width number smin : Nat) (file : List Nat)
    (hw : width_ok width) (hbytes : ∀ b ∈ file, b < 256) (hsz : smin ≤ file.length)
    (hlen : number * width ≤ file.length) :
    ∃ buf, load_bin le width number smin file = .ok buf ∧ buf.length = number
      ∧ ∀ i, i < number →
          buf.getD i 0
            = ((List.range width).map fun k =>
                file.getD (i * width + k) 0 * 256 ^ (width - 1 - k)).sum := by
  unfold load_bin
  rw [if_neg (by omega)]
  obtain ⟨out, hout, holen, hget⟩ := bin_loop_spec le width hw number 0 file
    (List.replicate number 0) hlen (by simp)
  refine ⟨out, hout, by rw [holen, List.length_replicate], ?_⟩
  intro i hi
  rw [hget i, if_pos (by omega), Nat.sub_zero]
  have hchunk_len : (((file.drop (i * width)).take width).map (· % 256)).length = width := by
    have : (i + 1) * width ≤ number * width := Nat.mul_le_mul_right _ hi
    have e : (i + 1) * width = i * width + width := by ring
    simp only [List.length_map, List.length_take, List.length_drop]
    omega
  have hmem : ∀ b ∈ (file.drop (i * width)).take width, b < 256 := fun b hb =>
    hbytes b (List.mem_of_mem_drop (List.mem_of_mem_take hb))
  have hmod : ((file.drop (i * width)).take width).map (· % 256)
      = (file.drop (i * width)).take width := by
    conv_rhs => rw [← List.map_id ((file.drop (i * width)).take width)]
    apply List.map_congr_left
    intro b hb
    exact Nat.mod_eq_of_lt (hmem b hb)
  rw [hmod] at hchunk_len ⊢
  rw [decode_chunk_eq le width _ hchunk_len hmem, from_bytes_le_reverse_eq_sum, hchunk_len]
  congr 1
  apply List.map_congr_left
  intro k hk
  have hk1 : k < width := List.mem_range.mp hk
  congr 1
  simp only [List.getD_eq_getElem?_getD]
  rw [List.getElem?_take_of_lt hk1, List.getElem?_drop]

/-- C10, the instance of the claim: the bytes 00 00 01 00 at width 4 decode to
256 on a little-endian host. -/
theorem load_bin_big_endian_witness :
    (width_ok 4 ∧ (∀ b ∈ [0, 0, 1, 0], b < 256) ∧ 4 ≤ [0, 0, 1, 0].length
      ∧ 1 * 4 ≤ [0, 0, 1, 0].length)
    ∧ load_bin true 4 1 4 [0, 0, 1, 0] = .ok [256]
    ∧ load_bin false 4 1 4 [0, 0, 1, 0] = .ok [256]
    ∧ ∃ buf, load_bin true 4 1 4 [0, 0, 1, 0] = .ok buf ∧ buf.length = 1
      ∧ ∀ i, i < 1 →
          buf.getD i 0
            = ((List.range 4).map fun k =>
                [0, 0, 1, 0].getD (i * 4 + k) 0 * 256 ^ (4 - 1 - k)).sum :=
  ⟨⟨by decide, by decide, by decide, by decide⟩, rfl, rfl,
   load_bin_big_endian true 4 1 4 [0, 0, 1, 0] (by decide) (by decide) (by decide)
     (by decide)⟩

/-! ## The line buffer -/

theorem row_text_map_some (l : List (List Char)) : row_text (l.map some) = some l.flatten := by
  induction l with
  | nil => rfl
  | cons s l ih => simp [row_text, ih]

theorem emit_fits (pieces : List (Option (List Char))) :
    ∀ (t : List Char) (lb : LineBuf), row_text pieces = some t → lb.text.length = lb.idx →
      lb.idx + t.length ≤ 255 →
      emit pieces lb = .ok ⟨lb.text ++ t, lb.idx + t.length⟩ := by
  induction pieces with
  | nil =>
    intro t lb ht _ _
    simp only [row_text, Option.some.injEq] at ht
    subst ht
    simp [emit]
  | cons p rest ih =>
    intro t lb ht hlen hfit
    cases p with
    | none => simp [row_text] at ht
    | some s =>
      simp only [row_text] at ht
      cases hr : row_text rest with
      | none => rw [hr] at ht; simp at ht
      | some t1 =>
        rw [hr] at ht
        simp only [Option.some.injEq] at ht
        subst ht
        simp only [List.length_append] at hfit
        have h1 : ¬ 256 < lb.idx := by omega
        have h2 : ¬ lb.idx = 256 := by omega
        have htake : lb.text.take lb.idx = lb.text := by
          rw [← hlen]; exact List.take_length _
        have htake2 : s.take (255 - lb.idx) = s := List.take_of_length_le (by omega)
        simp only [emit, snprintf, if_neg h1, if_neg h2, htake, htake2]
        rw [ih t1 ⟨lb.text ++ s, lb.idx + s.length⟩ hr (by simp [hlen])
          (by simp only []; omega)]
        simp [List.append_assoc, Nat.add_assoc]

theorem format_row_fits (le : Bool) (len : Nat) (va : Mem) (number width step index c : Nat)
    (print_char : Bool) (i : Nat) (t : List Char)
    (ht : row_text (row_pieces le len va number width step index c print_char i) = some t)
    (hfit : t.length ≤ 255) :
    format_row le len va number width step index c print_char i = .ok t := by
  unfold format_row
  rw [emit_fits _ t ⟨[], 0⟩ ht rfl (by simpa using hfit)]
  simp

/-! ## The loops of one row -/

theorem hex_loop_spec (le : Bool) (len : Nat) (va : Mem) (number width step i c : Nat)
    (hw : width_ok width) (hi : i < number) (hic : i + c ≤ 2 ^ 64) (fuel : Nat) :
    ∀ j _index, j + fuel = c → j ≤ min c (number - i) →
      (∀ t, t < min c (number - i) - j →
        elem_offset width ((fun x => add64 x step)^[t] _index) + width ≤ len) →
      hex_loop le len va number width step i c fuel j _index
        = ((List.range (min c (number - i) - j)).map fun t =>
              some (hex_cell width
                (elem_value le va width ((fun x => add64 x step)^[t] _index))),
           min c (number - i)) := by
  induction fuel with
  | zero =>
    intro j _index hj hle _
    have : min c (number - i) - j = 0 := by omega
    simp only [hex_loop, this, List.range_zero, List.map_nil, Prod.mk.injEq, true_and]
    omega
  | succ fuel ih =>
    intro j _index hj hle hmap
    unfold hex_loop
    have hadd : add64 j i = j + i := by unfold add64; omega
    by_cases hcond : j < c ∧ j + i < number
    · have hn : min c (number - i) - j = (min c (number - i) - (j + 1)) + 1 := by omega
      have h0 : elem_offset width _index + width ≤ len := by
        have := hmap 0 (by omega)
        simpa using this
      simp only [hadd, if_pos hcond, if_pos hw]
      rw [ih (j + 1) (add64 _index step) (by omega) (by omega)
        (fun t ht => by
          have := hmap (t + 1) (by omega)
          rwa [Function.iterate_succ_apply] at this)]
      rw [hn, List.range_succ_eq_map, List.map_cons, List.map_map]
      simp only [load_elem, if_pos h0, Option.map_some', Function.iterate_zero, id_eq]
      rfl
    · simp only [hadd, if_neg hcond]
      have : min c (number - i) - j = 0 := by omega
      simp only [this, List.range_zero, List.map_nil, Prod.mk.injEq, true_and]
      omega

theorem char_loop_spec (len : Nat) (va : Mem) (number width step i c : Nat)
    (hi : i < number) (hic : i + c ≤ 2 ^ 64) (fuel : Nat) :
    ∀ j offset, j + fuel = c → j ≤ min c (number - i) →
      (∀ t, t < min c (number - i) - j →
        (fun x => add64 x (mul64 width step))^[t] offset + width ≤ len) →
      char_loop len va number width step i c fuel j offset
        = ((List.range (min c (number - i) - j)).map fun t =>
              (List.range width).map fun k =>
                some (char_cell (byte_value va
                  (k + (fun x => add64 x (mul64 width step))^[t] offset)))).flatten := by
  induction fuel with
  | zero =>
    intro j offset hj hle _
    have : min c (number - i) - j = 0 := by omega
    simp [char_loop, this]
  | succ fuel ih =>
    intro j offset hj hle hmap
    unfold char_loop
    have hadd : add64 j i = j + i := by unfold add64; omega
    by_cases hcond : j < c ∧ j + i < number
    · have hn : min c (number - i) - j = (min c (number - i) - (j + 1)) + 1 := by omega
      have h0 : offset + width ≤ len := by
        have := hmap 0 (by omega)
        simpa using this
      have hbytes : ((List.range width).map fun k => (load_byte len va (k + offset)).map char_cell)
          = (List.range width).map fun k => some (char_cell (byte_value va (k + offset))) := by
        apply List.map_congr_left
        intro k hk
        have hk1 : k < width := List.mem_range.mp hk
        have hlt : (k + offset) % 2 ^ 64 < len :=
          lt_of_le_of_lt (Nat.mod_le _ _) (by omega)
        simp only [load_byte, if_pos hlt, Option.map_some']
      simp only [hadd, if_pos hcond, hbytes]
      rw [ih (j + 1) (add64 offset (mul64 width step)) (by omega) (by omega)
        (fun t ht => by
          have := hmap (t + 1) (by omega)
          rwa [Function.iterate_succ_apply] at this)]
      rw [hn, List.range_succ_eq_map, List.map_cons, List.map_map, List.flatten_cons]
      rfl
    · simp only [hadd, if_neg hcond]
      have : min c (number - i) - j = 0 := by omega
      simp [this]

theorem row_text_append (xs ys : List (Option (List Char))) (a b : List Char)
    (hx : row_text xs = some a) (hy : row_text ys = some b) :
    row_text (xs ++ ys) = some (a ++ b) := by
  induction xs generalizing a with
  | nil =>
    simp only [row_text, Option.some.injEq] at hx
    subst hx
    simpa using hy
  | cons p xs ih =>
    cases p with
    | none => simp [row_text] at hx
    | some s =>
      simp only [row_text] at hx
      cases hr : row_text xs with
      | none => rw [hr] at hx; simp at hx
      | some t =>
        rw [hr] at hx
        simp only [Option.some.injEq] at hx
        subst hx
        have hi := ih t hr
        show (match row_text (xs ++ ys) with
          | none => none
          | some u => some (s ++ u)) = some (s ++ t ++ b)
        rw [hi, List.append_assoc]

theorem row_text_cons (s : List Char) (rest : List (Option (List Char))) (t : List Char)
    (h : row_text rest = some t) : row_text (some s :: rest) = some (s ++ t) := by
  show (match row_text rest with
    | none => none
    | some u => some (s ++ u)) = some (s ++ t)
  rw [h]

theorem row_text_map (α : Type) (l : List α) (f : α → List Char) :
    row_text (l.map fun x => some (f x)) = some (l.map f).flatten := by
  have := row_text_map_some (l.map f)
  rwa [List.map_map] at this

theorem row_pieces_text (le : Bool) (len : Nat) (va : Mem) (number width step index c : Nat)
    (print_char : Bool) (r : Nat) (hw : width_ok width) (hi : r * c < number)
    (hic : r * c + c ≤ 2 ^ 64)
    (hmap : ∀ e, e < number → elem_offset width (elem_pos step index e) + width ≤ len) :
    row_text (row_pieces le len va number width step index c print_char (r * c))
      = some (spec_row le va number width step index c print_char r) := by
  have hhex := hex_loop_spec le len va number width step (r * c) c hw hi hic c 0
    (add64 (mul64 (r * c) step) index) (by omega) (by omega)
    (fun t ht => by
      have := hmap (r * c + t) (by omega)
      rw [← dump_index_eq] at this
      exact this)
  have hchar := char_loop_spec len va number width step (r * c) c hi hic c 0
    (mul64 (add64 (mul64 (r * c) step) index) width) (by omega) (by omega)
    (fun t ht => by
      have := hmap (r * c + t) (by omega)
      rw [elem_offset, ← dump_offset_eq] at this
      exact this)
  simp only [Nat.sub_zero] at hhex hchar
  have hcells : row_text (hex_loop le len va number width step (r * c) c c 0
        (add64 (mul64 (r * c) step) index)).1
      = some (spec_cells le va number width step index c r) := by
    rw [hhex]
    simp only []
    rw [row_text_map]
    unfold spec_cells spec_row_count
    congr 2
    apply List.map_congr_left
    intro t _
    show hex_cell width (elem_value le va width (dump_index step index (r * c) t)) = _
    rw [dump_index_eq]
  have hchars : row_text (char_loop len va number width step (r * c) c c 0
        (mul64 (add64 (mul64 (r * c) step) index) width))
      = some (spec_chars va number width step index c r) := by
    rw [hchar]
    have e : ((List.range (min c (number - r * c))).map fun t =>
          (List.range width).map fun k =>
            some (char_cell (byte_value va
              (k + (fun x => add64 x (mul64 width step))^[t]
                (mul64 (add64 (mul64 (r * c) step) index) width))))).flatten
        = (((List.range (min c (number - r * c))).map fun t =>
            (List.range width).map fun k =>
              char_cell (byte_value va
                (mul64 (elem_pos step index (r * c + t)) width + k))).flatten).map some := by
      rw [List.map_flatten, List.map_map]
      congr 1
      apply List.map_congr_left
      intro t _
      simp only [Function.comp, List.map_map]
      apply List.map_congr_left
      intro k _
      show some (char_cell (byte_value va (k + dump_offset width step index (r * c) t))) = _
      rw [dump_offset_eq, Nat.add_comm]
      rfl
    rw [e, row_text_map_some]
    unfold spec_chars spec_row_count
    rw [List.flatten_flatten, List.map_map]
    rfl
  have hblanks : row_text (List.replicate (c - min c (number - r * c))
        (some (blank_cell width)))
      = some (spec_blanks number width c r) := by
    have := row_text_map_some (List.replicate (c - min c (number - r * c)) (blank_cell width))
    rw [List.map_replicate] at this
    exact this
  have hsep : row_text [some separator] = some separator := by
    simp [row_text]
  have hsnd : (hex_loop le len va number width step (r * c) c c 0
      (add64 (mul64 (r * c) step) index)).2 = min c (number - r * c) := by rw [hhex]
  unfold row_pieces spec_row
  cases print_char
  · simp only [Bool.false_eq_true, if_false, List.append_nil]
    rw [row_text_cons _ _ _ hcells]
    simp only [elem_pos]
  · simp only [if_true, hsnd]
    rw [List.cons_append, row_text_cons _ _ _ (row_text_append _ _ _ _ hcells
      (row_text_append _ _ _ _ (row_text_append _ _ _ _ hblanks hsep) hchars))]
    simp only [elem_pos, List.append_assoc]

theorem row_width_pos (width print_cnt_one_line : Nat) :
    1 ≤ row_width width print_cnt_one_line := by
  unfold row_width
  by_cases h : print_cnt_one_line = 0
  · rw [if_pos h]
    by_cases h2 : width > 2 <;> by_cases h4 : width > 4 <;> simp [h2, h4]
  · rw [if_neg h]; omega

theorem row_lt_rows (number c r : Nat) (hc : 1 ≤ c) :
    r < (number + c - 1) / c ↔ r * c < number := by
  rw [Nat.lt_iff_add_one_le, Nat.le_div_iff_mul_le (by omega)]
  have : (r + 1) * c = r * c + c := by ring
  omega

/-- The row loop started at row `r`: with enough fuel, no wrap-around of the
loop counter, every element inside the mapping and every remaining row
fitting the line buffer, the lines printed are the remaining specified rows. -/
theorem dump_loop_spec (le : Bool) (len : Nat) (va : Mem) (number width step index c : Nat)
    (print_char : Bool) (hw : width_ok width) (hc : 1 ≤ c) (hn : number + c ≤ 2 ^ 64)
    (hmap : ∀ e, e < number → elem_offset width (elem_pos step index e) + width ≤ len)
    (hfit : ∀ r, r < (number + c - 1) / c →
      (spec_row le va number width step index c print_char r).length ≤ 255)
    (fuel : Nat) :
    ∀ r, r ≤ (number + c - 1) / c → (number + c - 1) / c - r ≤ fuel →
      dump_loop le len va number width step index c print_char fuel (r * c)
        = .ok ((List.range ((number + c - 1) / c - r)).map fun t =>
            spec_row le va number width step index c print_char (r + t)) := by
  induction fuel with
  | zero =>
    intro r hr hf
    have hrr : ¬ r < (number + c - 1) / c := by omega
    have : ¬ r * c < number := fun h => hrr ((row_lt_rows number c r hc).mpr h)
    have h0 : (number + c - 1) / c - r = 0 := by omega
    unfold dump_loop
    rw [if_neg this, h0]
    rfl
  | succ fuel ih =>
    intro r hr hf
    unfold dump_loop
    by_cases hlt : r * c < number
    · have hrr : r < (number + c - 1) / c := (row_lt_rows number c r hc).mpr hlt
      have hic : r * c + c ≤ 2 ^ 64 := by omega
      have hrow := row_pieces_text le len va number width step index c print_char r hw hlt hic
        hmap
      have hfmt := format_row_fits le len va number width step index c print_char (r * c) _
        hrow (hfit r hrr)
      have hnext : add64 (r * c) c = (r + 1) * c := by
        have : (r + 1) * c = r * c + c := by ring
        unfold add64
        rw [this]
        exact Nat.mod_eq_of_lt (by omega)
      rw [if_pos hlt]
      simp only [hfmt, hnext]
      rw [ih (r + 1) (by omega) (by omega)]
      have hcnt : (number + c - 1) / c - r = ((number + c - 1) / c - (r + 1)) + 1 := by omega
      rw [hcnt, List.range_succ_eq_map, List.map_cons, List.map_map]
      simp only [Nat.add_zero, Except.ok.injEq, List.cons.injEq, true_and]
      apply List.map_congr_left
      intro t _
      simp only [Function.comp]
      congr 1
      omega
    · have hrr : ¬ r < (number + c - 1) / c := fun h => hlt ((row_lt_rows number c r hc).mp h)
      have h0 : (number + c - 1) / c - r = 0 := by omega
      rw [if_neg hlt, h0]
      rfl

/-! ## Lengths of the formatted fields -/

theorem fmt_hex_length_le (minw v e : Nat) (hv : v < 16 ^ e) (he : 0 < e) :
    (fmt_hex minw v).length ≤ max minw e := by
  have hd : (Nat.toDigits 16 v).length ≤ e :=
    Nat.toDigitsCore_length 16 (by norm_num) (v + 1) v e hv he
  unfold fmt_hex
  simp only [List.length_append, List.length_replicate]
  omega

theorem fmt_hex_length (minw v e : Nat) (hv : v < 16 ^ e) (he : 0 < e) (hle : e ≤ minw) :
    (fmt_hex minw v).length = minw := by
  have hd : (Nat.toDigits 16 v).length ≤ e :=
    Nat.toDigitsCore_length 16 (by norm_num) (v + 1) v e hv he
  unfold fmt_hex
  simp only [List.length_append, List.length_replicate]
  omega

theorem from_bytes_le_lt (bs : List Nat) (h : ∀ b ∈ bs, b < 256) :
    from_bytes_le bs < 256 ^ bs.length := by
  induction bs with
  | nil => simp [from_bytes_le]
  | cons b bs ih =>
    have hb : b < 256 := h b (List.mem_cons_self _ _)
    have := ih (fun x hx => h x (List.mem_cons_of_mem _ hx))
    simp only [from_bytes_le, List.length_cons, pow_succ]
    omega

theorem elem_value_lt (le : Bool) (va : Mem) (width pos : Nat) :
    elem_value le va width pos < 256 ^ width := by
  have hb : ∀ b ∈ (List.range width).map (fun k => va (elem_offset width pos + k) % 256),
      b < 256 := by
    intro b hb
    simp only [List.mem_map] at hb
    obtain ⟨k, _, rfl⟩ := hb
    exact Nat.mod_lt _ (by norm_num)
  unfold elem_value host_decode
  split
  · have := from_bytes_le_lt _ hb
    simpa using this
  · have := from_bytes_le_lt ((List.range width).map
      (fun k => va (elem_offset width pos + k) % 256)).reverse
      (fun b h => hb b (List.mem_reverse.mp h))
    simpa using this

theorem hex_cell_length (le : Bool) (va : Mem) (width pos : Nat) (hw : 1 ≤ width) :
    (hex_cell width (elem_value le va width pos)).length = 1 + 2 * width := by
  have hlt : elem_value le va width pos < 16 ^ (width * 2) := by
    have := elem_value_lt le va width pos
    have e : (16 : Nat) ^ (width * 2) = 256 ^ width := by
      rw [Nat.mul_comm, pow_mul]; norm_num
    rw [e]
    exact this
  unfold hex_cell
  rw [List.length_cons, fmt_hex_length (width * 2) _ (width * 2) hlt (by omega) (le_refl _)]
  omega

theorem flatten_map_length {α : Type} (l : List α) (f : α → List Char) (k : Nat)
    (h : ∀ x ∈ l, (f x).length = k) : (l.map f).flatten.length = l.length * k := by
  induction l with
  | nil => simp
  | cons a l ih =>
    rw [List.map_cons, List.flatten_cons, List.length_append, h a (List.mem_cons_self _ _),
      ih (fun x hx => h x (List.mem_cons_of_mem _ hx)), List.length_cons]
    ring

theorem spec_cells_length (le : Bool) (va : Mem) (number width step index c r : Nat)
    (hw : 1 ≤ width) :
    (spec_cells le va number width step index c r).length
      = spec_row_count number c r * (1 + 2 * width) := by
  unfold spec_cells
  rw [flatten_map_length _ _ (1 + 2 * width) (fun j _ => hex_cell_length le va width _ hw),
    List.length_range]

theorem spec_blanks_length (number width c r : Nat) :
    (spec_blanks number width c r).length
      = (c - spec_row_count number c r) * (1 + 2 * width) := by
  unfold spec_blanks
  have := flatten_map_length (List.replicate (c - spec_row_count number c r) ())
    (fun _ => blank_cell width) (1 + 2 * width)
    (fun _ _ => by simp [blank_cell]; omega)
  simpa using this

theorem spec_chars_length (va : Mem) (number width step index c r : Nat) :
    (spec_chars va number width step index c r).length = spec_row_count number c r * width := by
  unfold spec_chars
  rw [flatten_map_length _ _ width, List.length_range]
  intro j _
  have := flatten_map_length (List.range width)
    (fun k => char_cell (byte_value va (mul64 (elem_pos step index (r * c + j)) width + k))) 1
    (fun _ _ => by simp [char_cell])
  simpa using this

theorem lt_sixteen_pow_addr_width (number width step off : Nat)
    (h : off ≤ sub64 (dump_size number width step) 1) :
    off < 16 ^ addr_width number width step := by
  rw [addr_width_eq_size]
  generalize sub64 (dump_size number width step) 1 = m at h
  have h1 : m < 2 ^ Nat.size m := Nat.lt_size_self m
  have h2 : Nat.size m ≤ 4 * max 1 ((Nat.size m + 3) / 4) := by omega
  have h3 : 2 ^ Nat.size m ≤ 2 ^ (4 * max 1 ((Nat.size m + 3) / 4)) :=
    Nat.pow_le_pow_right (by norm_num) h2
  have h4 : (2 : Nat) ^ (4 * max 1 ((Nat.size m + 3) / 4))
      = 16 ^ max 1 ((Nat.size m + 3) / 4) := by
    rw [pow_mul]; norm_num
  omega

theorem addr_width_pos (number width step : Nat) : 1 ≤ addr_width number width step := by
  rw [addr_width_eq_size]; omega

theorem addr_width_le (number width step : Nat) : addr_width number width step ≤ 16 := by
  rw [addr_width_eq_size]
  have : Nat.size (sub64 (dump_size number width step) 1) ≤ 64 :=
    Nat.size_le.mpr (sub64_lt _ _)
  omega

theorem addr_field_length_le (number width step off : Nat) (h : off < 2 ^ 64) :
    (addr_field (addr_width number width step) off).length ≤ 17 := by
  unfold addr_field
  have h16 : off < 16 ^ 16 := by norm_num at h ⊢; exact h
  have := fmt_hex_length_le (addr_width number width step) off 16 h16 (by norm_num)
  have := addr_width_le number width step
  rw [List.length_append, List.length_singleton]
  omega

/-- Without wrap-around of `number * (width * step)` the address of every row
is printed in exactly `addr_width` digits. -/
theorem addr_field_length (number width step index c r : Nat)
    (his : index < step) (hspan : number * (width * step) < 2 ^ 64) (hr : r * c < number) :
    (addr_field (addr_width number width step)
        (mul64 (elem_pos step index (r * c)) width)).length
      = addr_width number width step + 1 := by
  have hds : dump_size number width step = number * (width * step) := by
    rw [dump_size_eq]; exact Nat.mod_eq_of_lt hspan
  have hle : (r * c * step + index + 1) * width ≤ number * (width * step) := by
    have h1 : r * c * step + index + 1 ≤ (r * c + 1) * step := by
      have : (r * c + 1) * step = r * c * step + step := by ring
      omega
    have h2 : (r * c + 1) * step ≤ number * step := Nat.mul_le_mul_right _ (by omega)
    have h3 := Nat.mul_le_mul_right width (le_trans h1 h2)
    have : number * step * width = number * (width * step) := by ring
    omega
  have hexp : (r * c * step + index + 1) * width = (r * c * step + index) * width + width := by
    ring
  by_cases hw0 : width = 0
  · subst hw0
    have : mul64 (elem_pos step index (r * c)) 0 = 0 := by simp [mul64]
    rw [this]
    unfold addr_field
    rw [List.length_append, List.length_singleton,
      fmt_hex_length _ 0 (addr_width number 0 step) (by positivity)
        (addr_width_pos _ _ _) (le_refl _)]
  · have hpos : r * c * step + index < 2 ^ 64 := by
      have : (r * c * step + index) * 1 ≤ (r * c * step + index) * width :=
        Nat.mul_le_mul_left _ (by omega)
      omega
    have hoff : mul64 (elem_pos step index (r * c)) width = (r * c * step + index) * width := by
      rw [elem_pos_exact step index (r * c) hpos]
      exact Nat.mod_eq_of_lt (by omega)
    have hsub : sub64 (dump_size number width step) 1 = number * (width * step) - 1 := by
      rw [hds]; unfold sub64; omega
    have hlt := lt_sixteen_pow_addr_width number width step
      (mul64 (elem_pos step index (r * c)) width) (by rw [hoff, hsub]; omega)
    unfold addr_field
    rw [List.length_append, List.length_singleton,
      fmt_hex_length _ _ (addr_width number width step) hlt (addr_width_pos _ _ _) (le_refl _)]

theorem spec_row_count_le (number c r : Nat) : spec_row_count number c r ≤ c := by
  unfold spec_row_count; omega

/-- A bound on the length of a specified row: the address field has at most 17
characters, each of the `c` cells `1 + 2*width`, and with `print_char` the
gutter adds the separator and at most `c * width` characters. -/
theorem spec_row_length_le (le : Bool) (va : Mem) (number width step index c : Nat)
    (print_char : Bool) (r : Nat) (hw : 1 ≤ width) :
    (spec_row le va number width step index c print_char r).length
      ≤ 17 + c * (1 + 2 * width) + (if print_char then 3 + c * width else 0) := by
  have h1 := addr_field_length_le number width step (mul64 (elem_pos step index (r * c)) width)
    (mul64_lt _ _)
  have h2 := spec_cells_length le va number width step index c r hw
  have h3 := spec_blanks_length number width c r
  have h4 := spec_chars_length va number width step index c r
  have h5 := spec_row_count_le number c r
  have h6 : spec_row_count number c r * (1 + 2 * width)
      + (c - spec_row_count number c r) * (1 + 2 * width) = c * (1 + 2 * width) := by
    rw [← Nat.add_mul]; congr 1; omega
  have h7 : spec_row_count number c r * (1 + 2 * width) ≤ c * (1 + 2 * width) :=
    Nat.mul_le_mul_right _ h5
  have h8 : spec_row_count number c r * width ≤ c * width := Nat.mul_le_mul_right _ h5
  unfold spec_row
  cases print_char
  · simp only [Bool.false_eq_true, if_false, List.append_nil, List.length_append, Nat.add_zero]
    omega
  · simp only [if_true, List.length_append, separator, List.length_cons, List.length_nil]
    omega

theorem row_width_le (width print_cnt_one_line : Nat) (hc : print_cnt_one_line ≤ 32) :
    row_width width print_cnt_one_line ≤ 32 := by
  unfold row_width
  by_cases h : print_cnt_one_line = 0
  · rw [if_pos h]
    by_cases h2 : width > 2 <;> by_cases h4 : width > 4 <;> simp [h2, h4]
  · rw [if_neg h]; exact hc

/-- Rows of one- and two-byte elements always fit the line buffer, and so do
rows of the automatic row width. -/
theorem spec_row_fits (le : Bool) (va : Mem) (number width step index print_cnt_one_line : Nat)
    (print_char : Bool) (r : Nat) (hw : width_ok width) (hc : print_cnt_one_line ≤ 32)
    (hsmall : width ≤ 2 ∨ print_cnt_one_line = 0) :
    (spec_row le va number width step index (row_width width print_cnt_one_line) print_char
        r).length ≤ 255 := by
  have hw1 : 1 ≤ width := by unfold width_ok at hw; omega
  have h := spec_row_length_le le va number width step index
    (row_width width print_cnt_one_line) print_char r hw1
  have hif : (if print_char then 3 + row_width width print_cnt_one_line * width else 0)
      ≤ 3 + row_width width print_cnt_one_line * width := by
    split <;> omega
  have hrw := row_width_le width print_cnt_one_line hc
  unfold width_ok at hw
  rcases hw with rfl | rfl | rfl | rfl
  · omega
  · omega
  · have h0 : print_cnt_one_line = 0 := by omega
    subst h0
    have hrw : row_width 4 0 = 8 := by decide
    rw [hrw] at h hif ⊢
    omega
  · have h0 : print_cnt_one_line = 0 := by omega
    subst h0
    have hrw : row_width 8 0 = 4 := by decide
    rw [hrw] at h hif ⊢
    omega

/-- The lines `dump_memb` prints are the specified rows, provided the row
counter does not wrap around, every element lies inside the mapping and every
row fits the line buffer. -/
theorem dump_memb_eq_spec_rows (fuel : Nat) (le : Bool) (len : Nat) (va : Mem)
    (number width step index print_cnt_one_line c : Nat) (print_char : Bool)
    (hw : width_ok width) (hs : 1 ≤ step) (hc : row_width width print_cnt_one_line = c)
    (hn : number + c ≤ 2 ^ 64)
    (hmap : ∀ e, e < number → elem_offset width (elem_pos step index e) + width ≤ len)
    (hfit : ∀ r, r < (number + c - 1) / c →
      (spec_row le va number width step index c print_char r).length ≤ 255)
    (hfuel : (number + c - 1) / c ≤ fuel) :
    dump_memb fuel le len va number width step index print_cnt_one_line print_char
      = .ok ((List.range ((number + c - 1) / c)).map
          (spec_row le va number width step index c print_char)) := by
  have hc1 : 1 ≤ c := by rw [← hc]; exact row_width_pos _ _
  unfold dump_memb
  rw [if_neg (by omega), hc]
  have h := dump_loop_spec le len va number width step index c print_char hw hc1 hn hmap hfit
    fuel 0 (Nat.zero_le _) (by omega)
  simp only [Nat.zero_mul, Nat.sub_zero, Nat.zero_add] at h
  exact h

/-! ## C8 -/

/-- C8 (as amended): for every width in {1,2,4,8}, `step >= 1`, row width
`c >= 1` (the value of `print_cnt_one_line` after defaulting) and `number`
such that there is no 64-bit wrap-around --
`(number-1)*(width*step) + width*(index+1) < 2^64` for `size_min` and the
addresses, `number + c <= 2^64` for the row counter `i += c` -- in a mapping
of at least `size_min` bytes, and whenever every row fits the 255 characters
of the line buffer, `dump_memb` prints exactly `ceil(number / c)` lines, and
line `r` is the address `(r*c*step + index) * width` of element `r*c`, a
colon and exactly `min(c, number - r*c)` hex cells of `1 + 2*width`
characters, those of the elements `r*c + j` read at position
`(r*c + j)*step + index`, byte `((r*c + j)*step + index) * width` (then, with
`print_char`, the character gutter).  Rows longer than the line buffer are
left unspecified. -/
theorem dump_memb_rows (fuel : Nat) (le : Bool) (len : Nat) (va : Mem)
    (number width step index print_cnt_one_line c : Nat) (print_char : Bool)
    (hw : width_ok width) (hs : 1 ≤ step) (hc : row_width width print_cnt_one_line = c)
    (hnw : (number - 1) * (width * step) + width * (index + 1) < 2 ^ 64)
    (hmapped : size_min number width step index ≤ len)
    (hn : number + c ≤ 2 ^ 64)
    (hfit : ∀ r, r < (number + c - 1) / c →
      (spec_row le va number width step index c print_char r).length ≤ 255)
    (hfuel : (number + c - 1) / c ≤ fuel) :
    ∃ lines,
      dump_memb fuel le len va number width step index print_cnt_one_line print_char
        = .ok lines
      ∧ lines.length = (number + c - 1) / c
      ∧ ∀ r, r < (number + c - 1) / c →
          lines.getD r []
            = addr_field (addr_width number width step) ((r * c * step + index) * width)
                ++ ((List.range (min c (number - r * c))).map fun j =>
                      hex_cell width
                        (elem_value le va width ((r * c + j) * step + index))).flatten
                ++ (if print_char then
                      spec_blanks number width c r ++ separator
                        ++ spec_chars va number width step index c r
                    else [])
          ∧ (((List.range (min c (number - r * c))).map fun j =>
                hex_cell width
                  (elem_value le va width ((r * c + j) * step + index))).flatten).length
              = min c (number - r * c) * (1 + 2 * width)
          ∧ ∀ j, j < min c (number - r * c) →
              elem_offset width ((r * c + j) * step + index)
                = ((r * c + j) * step + index) * width
              ∧ ((r * c + j) * step + index) * width + width ≤ len := by
  have hw1 : 1 ≤ width := by unfold width_ok at hw; omega
  have hc1 : 1 ≤ c := by rw [← hc]; exact row_width_pos _ _
  have hmap : ∀ e, e < number → elem_offset width (elem_pos step index e) + width ≤ len :=
    fun e he => elem_mapped_of_no_wrap number width step index len e he hw1 hs hnw hmapped
  refine ⟨_, dump_memb_eq_spec_rows fuel le len va number width step index print_cnt_one_line
    c print_char hw hs hc hn hmap hfit hfuel, by simp, ?_⟩
  intro r hr
  have hrc : r * c < number := (row_lt_rows number c r hc1).mp hr
  have hpos : ∀ j, j < min c (number - r * c) →
      elem_pos step index (r * c + j) = (r * c + j) * step + index := fun j hj =>
    elem_pos_exact_of_span number width step index (r * c + j) (by omega) hw1 hnw
  have hcells : ((List.range (min c (number - r * c))).map fun j =>
        hex_cell width (elem_value le va width ((r * c + j) * step + index)))
      = (List.range (min c (number - r * c))).map fun j =>
        hex_cell width (elem_value le va width (elem_pos step index (r * c + j))) := by
    apply List.map_congr_left
    intro j hj
    rw [hpos j (List.mem_range.mp hj)]
  have haddr : mul64 (elem_pos step index (r * c)) width = (r * c * step + index) * width :=
    elem_offset_exact number width step index (r * c) hrc hw1 hnw
  refine ⟨?_, ?_, ?_⟩
  · rw [List.getD_eq_getElem _ _ (by simpa using hr), hcells, ← haddr]
    simp [spec_row, spec_cells, spec_row_count]
  · rw [hcells]
    exact spec_cells_length le va number width step index c r hw1
  · intro j hj
    have he : r * c + j < number := by omega
    have h1 := elem_offset_exact number width step index (r * c + j) he hw1 hnw
    have h2 := hmap (r * c + j) he
    rw [hpos j hj] at h1 h2
    rw [h1] at h2
    exact ⟨h1, h2⟩

/-- C8, the instance of the claim: `number = 40`, `width = 1`, `c = 16` gives
three rows of 16, 16 and 8 hex cells. -/
theorem dump_memb_rows_witness :
    (width_ok 1 ∧ 1 ≤ 1 ∧ row_width 1 16 = 16
      ∧ (40 - 1) * (1 * 1) + 1 * (0 + 1) < 2 ^ 64 ∧ size_min 40 1 1 0 ≤ 40 ∧ 40 + 16 ≤ 2 ^ 64
      ∧ (∀ r, r < (40 + 16 - 1) / 16 →
          (spec_row true (fun a => a % 256) 40 1 1 0 16 false r).length ≤ 255)
      ∧ (40 + 16 - 1) / 16 ≤ 3)
    ∧ (40 + 16 - 1) / 16 = 3
    ∧ (List.range 3).map (fun r => min 16 (40 - r * 16)) = [16, 16, 8]
    ∧ ∃ lines,
      dump_memb 3 true 40 (fun a => a % 256) 40 1 1 0 16 false = .ok lines
      ∧ lines.length = (40 + 16 - 1) / 16
      ∧ ∀ r, r < (40 + 16 - 1) / 16 →
          lines.getD r []
            = addr_field (addr_width 40 1 1) ((r * 16 * 1 + 0) * 1)
                ++ ((List.range (min 16 (40 - r * 16))).map fun j =>
                      hex_cell 1
                        (elem_value true (fun a => a % 256) 1 ((r * 16 + j) * 1 + 0))).flatten
                ++ (if false then
                      spec_blanks 40 1 16 r ++ separator
                        ++ spec_chars (fun a => a % 256) 40 1 1 0 16 r
                    else [])
          ∧ (((List.range (min 16 (40 - r * 16))).map fun j =>
                hex_cell 1
                  (elem_value true (fun a => a % 256) 1 ((r * 16 + j) * 1 + 0))).flatten).length
              = min 16 (40 - r * 16) * (1 + 2 * 1)
          ∧ ∀ j, j < min 16 (40 - r * 16) →
              elem_offset 1 ((r * 16 + j) * 1 + 0) = ((r * 16 + j) * 1 + 0) * 1
              ∧ ((r * 16 + j) * 1 + 0) * 1 + 1 ≤ 40 :=
  ⟨⟨by decide, by decide, by decide, by norm_num, by decide, by norm_num, by decide,
    by decide⟩, by decide, by decide,
   dump_memb_rows 3 true 40 (fun a => a % 256) 40 1 1 0 16 16 false (by decide) (by decide)
     (by decide) (by norm_num) (by decide) (by norm_num) (by decide) (by decide)⟩

/-- With `number = 2^64 - 1`, width 8, step `2^61` and two elements to a row,
every element lies at byte 0 of the mapping, and the row counter returns to
0 after the row that starts at `2^64 - 2`, so the row loop never leaves. -/
theorem dump_loop_wraps (va : Mem) (fuel : Nat) :
    ∀ r, r < 2 ^ 63 →
      dump_loop true 8 va (2 ^ 64 - 1) 8 (2 ^ 61) 0 2 false fuel (r * 2)
        = .error .out_of_fuel := by
  have hmap : ∀ e, e < 2 ^ 64 - 1 → elem_offset 8 (elem_pos (2 ^ 61) 0 e) + 8 ≤ 8 := by
    intro e _
    have : elem_offset 8 (elem_pos (2 ^ 61) 0 e) = 0 := by
      simp only [elem_offset, elem_pos, add64, mul64]
      omega
    omega
  induction fuel with
  | zero =>
    intro r hr
    unfold dump_loop
    rw [if_pos (by omega)]
  | succ fuel ih =>
    intro r hr
    have hlt : r * 2 < 2 ^ 64 - 1 := by omega
    have hrow := row_pieces_text true 8 va (2 ^ 64 - 1) 8 (2 ^ 61) 0 2 false r (by decide) hlt
      (by omega) hmap
    have hlen : (spec_row true va (2 ^ 64 - 1) 8 (2 ^ 61) 0 2 false r).length ≤ 255 := by
      have := spec_row_length_le true va (2 ^ 64 - 1) 8 (2 ^ 61) 0 2 false r (by norm_num)
      simp only [Bool.false_eq_true, if_false] at this
      omega
    have hfmt := format_row_fits true 8 va (2 ^ 64 - 1) 8 (2 ^ 61) 0 2 false (r * 2) _ hrow hlen
    unfold dump_loop
    rw [if_pos hlt]
    simp only [hfmt]
    by_cases hr1 : r + 1 < 2 ^ 63
    · have hnext : add64 (r * 2) 2 = (r + 1) * 2 := by unfold add64; omega
      rw [hnext, ih (r + 1) hr1]
    · have hnext : add64 (r * 2) 2 = 0 * 2 := by unfold add64; omega
      rw [hnext, ih 0 (by norm_num)]

/-- C8 as stated fails, at inputs that pass the parameter check and stay
inside the mapping.  With `-w 8 -t 0x2000000000000001 -i 1 -n 2 -s 24 -P 1`
the second row starts at element 1, whose address `(1*step + index) * width`
is `2^64 + 16`; the row printed is that of byte 16, with the address `10`.
With `-w 8 -t 0x2000000000000000 -n 0xffffffffffffffff -s 8 -P 2` the claim
asks for `2^63` rows, but the row counter wraps around and `2^63 + 1`
iterations of the row loop do not end it.  With `-w 8 -P 32 -n 32` the only
row cannot hold its 32 hex cells: the sixteenth `snprintf` is called with
`idx = 258` beyond the 256 bytes of the line buffer. -/
theorem dump_memb_rows_fail :
    (check_params 8 (2 ^ 61 + 1) 1 2 24 = .ok (24, 24) ∧ row_width 8 1 = 1
      ∧ (1 * 1 * (2 ^ 61 + 1) + 1) * 8 = 2 ^ 64 + 16
      ∧ dump_memb 2 true 24 (fun a => a) 2 8 (2 ^ 61 + 1) 1 1 false
          = .ok ["8: 0f0e0d0c0b0a0908".toList, "10: 1716151413121110".toList])
    ∧ (check_params 8 (2 ^ 61) 0 (2 ^ 64 - 1) 8 = .ok (8, 8)
      ∧ (2 ^ 64 - 1 + 2 - 1) / 2 = 2 ^ 63
      ∧ dump_memb (2 ^ 63 + 1) true 8 (fun _ => 0) (2 ^ 64 - 1) 8 (2 ^ 61) 0 2 false
          = .error .out_of_fuel)
    ∧ (check_params 8 1 0 32 0 = .ok (256, 256) ∧ (32 + 32 - 1) / 32 = 1
      ∧ dump_memb 1 true 256 (fun _ => 0) 32 8 1 0 32 false = .error .line_overrun) := by
  refine ⟨⟨rfl, by decide, by norm_num, rfl⟩, ⟨rfl, by norm_num, ?_⟩, rfl, by norm_num, rfl⟩
  have h := dump_loop_wraps (fun _ => 0) (2 ^ 63 + 1) 0 (by norm_num)
  simpa [dump_memb, row_width] using h

/-! ## C9 -/

/-- C9 (as amended): with `print_char` set, for every width in {1,2,4,8},
`index < step`, row width `c >= 1` and `number` such that neither
`number * (width * step)` nor the row counter leaves the 64-bit range, in a
mapping of at least `size_min` bytes, and such that the longest row fits the
255 characters of the line buffer, every line printed is
`head ++ " | " ++ chars` where `head` -- the address in exactly `addr_width`
digits, a colon, the hex cells of `1 + 2*width` characters each and blank
cells for the missing ones -- has the same length
`addr_width + 1 + c*(1 + 2*width)` in every row, short last row included.
Rows longer than the line buffer are left unspecified. -/
theorem gutter_aligned (fuel : Nat) (le : Bool) (len : Nat) (va : Mem)
    (number width step index print_cnt_one_line c : Nat)
    (hw : width_ok width) (his : index < step) (hc : row_width width print_cnt_one_line = c)
    (hspan : number * (width * step) < 2 ^ 64) (hn : number + c ≤ 2 ^ 64)
    (hmapped : size_min number width step index ≤ len)
    (hfit : addr_width number width step + 1 + c * (1 + 2 * width) + 3 + min c number * width
      ≤ 255)
    (hfuel : (number + c - 1) / c ≤ fuel) :
    ∃ lines,
      dump_memb fuel le len va number width step index print_cnt_one_line true = .ok lines
      ∧ lines.length = (number + c - 1) / c
      ∧ ∀ r, r < (number + c - 1) / c →
          lines.getD r []
            = (addr_field (addr_width number width step)
                  (mul64 (elem_pos step index (r * c)) width)
                ++ spec_cells le va number width step index c r
                ++ spec_blanks number width c r)
              ++ separator ++ spec_chars va number width step index c r
          ∧ (addr_field (addr_width number width step)
                (mul64 (elem_pos step index (r * c)) width)).length
              = addr_width number width step + 1
          ∧ (spec_cells le va number width step index c r).length
              = spec_row_count number c r * (1 + 2 * width)
          ∧ (spec_blanks number width c r).length
              = (c - spec_row_count number c r) * (1 + 2 * width)
          ∧ (addr_field (addr_width number width step)
                  (mul64 (elem_pos step index (r * c)) width)
                ++ spec_cells le va number width step index c r
                ++ spec_blanks number width c r).length
              = addr_width number width step + 1 + c * (1 + 2 * width) := by
  have hc1 : 1 ≤ c := by rw [← hc]; exact row_width_pos _ _
  have hw1 : 1 ≤ width := by unfold width_ok at hw; omega
  have hs : 1 ≤ step := by omega
  have hmap : ∀ e, e < number → elem_offset width (elem_pos step index e) + width ≤ len := by
    intro e he
    have hnw : (number - 1) * (width * step) + width * (index + 1) < 2 ^ 64 := by
      have h1 : width * (index + 1) ≤ width * step := Nat.mul_le_mul_left _ his
      have h2 : (number - 1) * (width * step) + width * step = number * (width * step) := by
        have : number = (number - 1) + 1 := by omega
        conv_rhs => rw [this]
        ring
      omega
    exact elem_mapped_of_no_wrap number width step index len e he hw1 hs hnw hmapped
  have hhead : ∀ r, r < (number + c - 1) / c →
      (addr_field (addr_width number width step)
          (mul64 (elem_pos step index (r * c)) width)).length
        = addr_width number width step + 1 := fun r hr =>
    addr_field_length number width step index c r his hspan ((row_lt_rows number c r hc1).mp hr)
  have hsum : ∀ r, spec_row_count number c r * (1 + 2 * width)
      + (c - spec_row_count number c r) * (1 + 2 * width) = c * (1 + 2 * width) := by
    intro r
    rw [← Nat.add_mul]
    congr 1
    have := spec_row_count_le number c r
    omega
  have hcnt : ∀ r, spec_row_count number c r * width ≤ min c number * width := by
    intro r
    apply Nat.mul_le_mul_right
    unfold spec_row_count
    omega
  have hrowfit : ∀ r, r < (number + c - 1) / c →
      (spec_row le va number width step index c true r).length ≤ 255 := by
    intro r hr
    unfold spec_row
    simp only [if_true, List.length_append, hhead r hr,
      spec_cells_length le va number width step index c r hw1, spec_blanks_length,
      spec_chars_length, separator, List.length_cons, List.length_nil]
    have := hsum r
    have := hcnt r
    omega
  refine ⟨_, dump_memb_eq_spec_rows fuel le len va number width step index print_cnt_one_line
    c true hw hs hc hn hmap hrowfit hfuel, by simp, ?_⟩
  intro r hr
  refine ⟨?_, hhead r hr, spec_cells_length le va number width step index c r hw1,
    spec_blanks_length number width c r, ?_⟩
  · rw [List.getD_eq_getElem _ _ (by simpa using hr)]
    simp [spec_row, List.append_assoc]
  · simp only [List.length_append, hhead r hr,
      spec_cells_length le va number width step index c r hw1, spec_blanks_length]
    have := hsum r
    omega

/-- C9, an instance: 40 bytes, 16 to a row; the last row has 8 cells. -/
theorem gutter_aligned_witness :
    (width_ok 1 ∧ 0 < 1 ∧ row_width 1 16 = 16 ∧ 40 * (1 * 1) < 2 ^ 64 ∧ 40 + 16 ≤ 2 ^ 64
      ∧ size_min 40 1 1 0 ≤ 40
      ∧ addr_width 40 1 1 + 1 + 16 * (1 + 2 * 1) + 3 + min 16 40 * 1 ≤ 255
      ∧ (40 + 16 - 1) / 16 ≤ 3)
    ∧ ∃ lines, dump_memb 3 true 40 (fun a => a % 256) 40 1 1 0 16 true = .ok lines
      ∧ lines.length = (40 + 16 - 1) / 16
      ∧ ∀ r, r < (40 + 16 - 1) / 16 →
          lines.getD r []
            = (addr_field (addr_width 40 1 1) (mul64 (elem_pos 1 0 (r * 16)) 1)
                ++ spec_cells true (fun a => a % 256) 40 1 1 0 16 r
                ++ spec_blanks 40 1 16 r)
              ++ separator ++ spec_chars (fun a => a % 256) 40 1 1 0 16 r
          ∧ (addr_field (addr_width 40 1 1) (mul64 (elem_pos 1 0 (r * 16)) 1)).length
              = addr_width 40 1 1 + 1
          ∧ (spec_cells true (fun a => a % 256) 40 1 1 0 16 r).length
              = spec_row_count 40 16 r * (1 + 2 * 1)
          ∧ (spec_blanks 40 1 16 r).length = (16 - spec_row_count 40 16 r) * (1 + 2 * 1)
          ∧ (addr_field (addr_width 40 1 1) (mul64 (elem_pos 1 0 (r * 16)) 1)
                ++ spec_cells true (fun a => a % 256) 40 1 1 0 16 r
                ++ spec_blanks 40 1 16 r).length
              = addr_width 40 1 1 + 1 + 16 * (1 + 2 * 1) :=
  ⟨⟨by decide, by decide, by decide, by norm_num, by norm_num, by decide, by decide,
    by decide⟩,
   gutter_aligned 3 true 40 (fun a => a % 256) 40 1 1 0 16 16 (by decide) (by decide)
     (by decide) (by norm_num) (by norm_num) (by decide) (by decide) (by decide)⟩

/-- C9 as stated fails.  `-w 8 -t 0x2000000000000001 -i 1 -n 2 -s 24 -P 1 -c`
passes the parameter check and stays inside the 24 mapped bytes; the size
`number * (width * step)` wraps around to 16, so the address width is 1,
and the separator starts at column 19 in the first row, whose address is
`8`, but at column 20 in the second, whose address is `10`.  With width 8
and 32 elements per row no separator is printed at all: the line buffer is
overrun before it. -/
theorem gutter_not_aligned :
    (width_ok 8 ∧ 1 < 2 ^ 61 + 1 ∧ check_params 8 (2 ^ 61 + 1) 1 2 24 = .ok (24, 24)
      ∧ row_width 8 1 = 1 ∧ addr_width 2 8 (2 ^ 61 + 1) = 1
      ∧ addr_width 2 8 (2 ^ 61 + 1) + 1 + 1 * (1 + 2 * 8) = 19
      ∧ dump_memb 2 true 24 (fun a => a + 0x40) 2 8 (2 ^ 61 + 1) 1 1 true
          = .ok ["8: 4f4e4d4c4b4a4948".toList ++ " | HIJKLMNO".toList,
                 "10: 5756555453525150".toList ++ " | PQRSTUVW".toList]
      ∧ "8: 4f4e4d4c4b4a4948".toList.length = 19
      ∧ "10: 5756555453525150".toList.length = 20)
    ∧ (width_ok 8 ∧ 0 < 1 ∧ check_params 8 1 0 33 0 = .ok (264, 264)
      ∧ dump_memb 2 true 264 (fun _ => 0) 33 8 1 0 32 true = .error .line_overrun) := by
  refine ⟨⟨by decide, by decide, rfl, by decide, by decide, by decide, rfl, by decide,
    by decide⟩, by decide, by decide, rfl, rfl⟩

/-! ## C11 -/

theorem literal_loop_append (strtoull : String → Nat × String) (width : Nat)
    (xs ys : List String) :
    ∀ (i : Nat) (buf : List Nat),
      literal_loop strtoull width (xs ++ ys) i buf
        = match literal_loop strtoull width xs i buf with
          | .error e => .error e
          | .ok buf1 => literal_loop strtoull width ys (i + xs.length) buf1 := by
  induction xs with
  | nil => intro i buf; simp [literal_loop]
  | cons x xs ih =>
    intro i buf
    have hl : i + 1 + xs.length = i + (xs.length + 1) := by omega
    simp only [List.cons_append, literal_loop, List.length_cons, List.append_eq]
    by_cases h1 : (strtoull x).2 ≠ ""
    · simp only [if_pos h1]
    · simp only [if_neg h1]
      by_cases h2 : ¬ width_ok width
      · simp only [if_pos h2]
        rw [ih (i + 1) buf, hl]
      · simp only [if_neg h2]
        by_cases h3 : i < buf.length
        · simp only [if_pos h3]
          rw [ih (i + 1) _, hl]
        · simp only [if_neg h3]

/-- What the literal loop leaves in the buffer when every token is read to its
end and the stores stay inside the buffer: elements `i .. i + toks.length - 1`
hold the truncated values, all others are untouched. -/
theorem literal_loop_spec (strtoull : String → Nat × String) (width : Nat)
    (hw : width_ok width) (toks : List String) :
    ∀ (i : Nat) (buf : List Nat), i + toks.length ≤ buf.length →
      (∀ tok ∈ toks, (strtoull tok).2 = "") →
      ∃ out, literal_loop strtoull width toks i buf = .ok out ∧ out.length = buf.length
        ∧ ∀ j, out.getD j 0 =
            if i ≤ j ∧ j < i + toks.length then
              (strtoull (toks.getD (j - i) "")).1 % 256 ^ width
            else buf.getD j 0 := by
  induction toks with
  | nil =>
    intro i buf _ _
    refine ⟨buf, rfl, rfl, ?_⟩
    intro j
    rw [if_neg (by simp)]
  | cons tok toks ih =>
    intro i buf hlen hparse
    simp only [List.length_cons] at hlen
    have h1 : (strtoull tok).2 = "" := hparse tok (List.mem_cons_self _ _)
    have h3 : i < buf.length := by omega
    obtain ⟨out, hout, holen, hget⟩ := ih (i + 1) (buf.set i ((strtoull tok).1 % 256 ^ width))
      (by rw [List.length_set]; omega) (fun t ht => hparse t (List.mem_cons_of_mem _ ht))
    refine ⟨out, ?_, by rw [holen, List.length_set], ?_⟩
    · simp only [literal_loop, h1, ne_eq, not_true_eq_false, if_false, hw, if_pos h3, hout]
    · intro j
      rw [hget j]
      simp only [List.length_cons]
      by_cases hji : j = i
      · subst hji
        rw [if_neg (by omega), if_pos (by omega)]
        simp only [Nat.sub_self, List.getD_cons_zero]
        rw [List.getD_eq_getElem _ _ (by rw [List.length_set]; omega), List.getElem_set_self]
      · by_cases hin : i + 1 ≤ j ∧ j < i + 1 + toks.length
        · rw [if_pos hin, if_pos (by omega)]
          have : j - i = (j - (i + 1)) + 1 := by omega
          rw [this, List.getD_cons_succ]
        · rw [if_neg hin, if_neg (by omega)]
          simp only [List.getD_eq_getElem?_getD]
          rw [List.getElem?_set_ne (fun h => hji h.symm)]

/-- C11: for every scanner, every width in {1,2,4,8} and every argument list
with at least `number` tokens whose first `number` tokens are read to their
end, after the loop has handled those tokens element `i` of the write buffer
is `v_i mod 2^(8*width)` for the value `v_i` of token `i`, whatever its size;
the rest of the loop continues on that buffer, and when there are exactly
`number` tokens the load succeeds with those elements. -/
theorem literals_stored_truncated (strtoull : String → Nat × String) (width number : Nat)
    (argv : List String) (hw : width_ok width) (hlen : number ≤ argv.length)
    (hparse : ∀ tok ∈ argv.take number, (strtoull tok).2 = "") :
    literal_loop strtoull width (argv.take number) 0 (List.replicate number 0)
        = .ok ((argv.take number).map fun tok => (strtoull tok).1 % 2 ^ (8 * width))
    ∧ load_literals strtoull width number argv
        = literal_loop strtoull width (argv.drop number) number
            ((argv.take number).map fun tok => (strtoull tok).1 % 2 ^ (8 * width))
    ∧ (argv.length = number →
        load_literals strtoull width number argv
          = .ok (argv.map fun tok => (strtoull tok).1 % 2 ^ (8 * width))) := by
  have hpow : (256 : Nat) ^ width = 2 ^ (8 * width) := by
    rw [pow_mul]; norm_num
  have htl : (argv.take number).length = number := by
    rw [List.length_take]; omega
  have hfirst : literal_loop strtoull width (argv.take number) 0 (List.replicate number 0)
      = .ok ((argv.take number).map fun tok => (strtoull tok).1 % 2 ^ (8 * width)) := by
    obtain ⟨out, hout, holen, hget⟩ := literal_loop_spec strtoull width hw (argv.take number) 0
      (List.replicate number 0) (by simp [htl]) hparse
    rw [hout]
    congr 1
    apply List.ext_getElem
    · rw [holen, List.length_replicate, List.length_map, htl]
    · intro j h1 h2
      have hj : j < number := by
        rw [holen, List.length_replicate] at h1; exact h1
      have := hget j
      rw [if_pos (by omega), List.getD_eq_getElem _ _ h1, Nat.sub_zero,
        List.getD_eq_getElem _ _ (by omega), hpow] at this
      rw [this, List.getElem_map]
  have hload : load_literals strtoull width number argv
      = literal_loop strtoull width (argv.drop number) number
          ((argv.take number).map fun tok => (strtoull tok).1 % 2 ^ (8 * width)) := by
    unfold load_literals
    rw [if_neg (by omega)]
    conv_lhs => rw [← List.take_append_drop number argv]
    rw [literal_loop_append, hfirst]
    simp only [htl, Nat.zero_add]
  refine ⟨hfirst, hload, ?_⟩
  intro heq
  rw [hload]
  have hd : argv.drop number = [] := by
    rw [List.drop_eq_nil_iff]; omega
  have ht : argv.take number = argv := by
    rw [List.take_of_length_le (by omega)]
  rw [hd, ht]
  rfl

/-- C11, the instance of the claim: the literal 300 at width 1 stores 44. -/
theorem literals_stored_truncated_witness :
    (width_ok 1 ∧ 1 ≤ ["300"].length
      ∧ (∀ tok ∈ ["300"].take 1, ((fun s => if s = "300" then (300, "") else (0, s)) tok).2 = ""))
    ∧ 300 % 2 ^ (8 * 1) = 44
    ∧ load_literals (fun s => if s = "300" then (300, "") else (0, s)) 1 1 ["300"] = .ok [44]
    ∧ load_literals (fun s => if s = "300" then (300, "") else (0, s)) 1 1 ["300"]
        = .ok (["300"].map fun tok =>
            ((fun s => if s = "300" then (300, "") else (0, s)) tok).1 % 2 ^ (8 * 1)) :=
  ⟨⟨by decide, by decide, by decide⟩, by decide, rfl,
   (literals_stored_truncated (fun s => if s = "300" then (300, "") else (0, s)) 1 1 ["300"]
      (by decide) (by decide) (by decide)).2.2 rfl⟩

/-! ## C12 -/

theorem munmap_calls_append (xs ys : List Event) :
    munmap_calls (xs ++ ys) = munmap_calls xs + munmap_calls ys := by
  induction xs with
  | nil => simp [munmap_calls]
  | cons x xs ih =>
    cases x <;> simp [munmap_calls, ih]
    omega

theorem munmap_calls_free_buf (buf_p : Nat) : munmap_calls (free_buf buf_p) = 0 := by
  unfold free_buf
  split <;> rfl

/-- C12, the code on every run in which `mmap` succeeds: for every mode, every
`size_min`, every buffer pointer and every pointer `va_p` returned by `mmap`
other than `MAP_FAILED` and other than the null pointer (which `mmap` with a
null hint does not return), `main` leaves with status 0 through its only exit
path and has called `munmap` zero times: the test `!va.p` at line 687 is
false exactly when there is a mapping to release. -/
theorem munmap_not_called (mode va_p size_min buf_p : Nat)
    (hnull : va_p ≠ 0) (hmap : va_p ≠ MAP_FAILED) :
    (main_map_phase mode true va_p size_min buf_p).1 = 0
    ∧ munmap_calls (main_map_phase mode true va_p size_min buf_p).2 = 0
    ∧ Event.munmap va_p size_min ∉ (main_map_phase mode true va_p size_min buf_p).2 := by
  have hcond : ¬ (va_p = 0 ∧ va_p ≠ MAP_FAILED) := fun h => hnull h.1
  unfold main_map_phase
  rw [if_neg (by simp), if_neg hmap]
  simp only [if_neg hcond, List.append_nil]
  refine ⟨trivial, ?_, ?_⟩
  · simp only [munmap_calls_append, munmap_calls_free_buf]
    split_ifs <;> rfl
  · simp only [List.mem_append, List.mem_singleton, free_buf]
    split_ifs <;> simp

/-- C12, the failing run: read-only mode, `mmap` returns `0x7f0000000000`. -/
theorem munmap_not_called_witness :
    (0x7f0000000000 ≠ 0 ∧ 0x7f0000000000 ≠ MAP_FAILED)
    ∧ main_map_phase MODE_RD_ONLY true 0x7f0000000000 1 0 = (0, [.close_fd, .dump])
    ∧ munmap_calls (main_map_phase MODE_RD_ONLY true 0x7f0000000000 1 0).2 = 0 :=
  ⟨by decide, by decide,
   (munmap_not_called MODE_RD_ONLY 0x7f0000000000 1 0 (by decide) (by decide)).2.1⟩

/-! ## C13 -/

set_option maxRecDepth 100000 in
/-- C13, the code at the failing input `-w 4 -P 32 -n 32` (step 1, index 0, no
`-c`): the parameters pass the check and 128 bytes are mapped, the row width
32 is accepted, the text formatted for the only row has 291 characters,
after the address and 29 of the 32 cells `idx` is 264, and the next
`snprintf` is called with `idx` beyond the 256 bytes of `p_tmp`. -/
theorem row_longer_than_line_buffer :
    width_ok 4 ∧ 32 ≤ 32 ∧ row_width 4 32 = 32
    ∧ check_params 4 1 0 32 0 = .ok (128, 128)
    ∧ (row_text (row_pieces true 128 (fun _ => 0) 32 4 1 0 32 false 0)).map List.length
        = some 291
    ∧ 255 < 291
    ∧ (match emit ((row_pieces true 128 (fun _ => 0) 32 4 1 0 32 false 0).take 30) ⟨[], 0⟩ with
        | .ok lb => lb.idx
        | .error _ => 0) = 264
    ∧ format_row true 128 (fun _ => 0) 32 4 1 0 32 false 0 = .error .line_overrun
    ∧ dump_memb 1 true 128 (fun _ => 0) 32 4 1 0 32 false = .error .line_overrun := by
  refine ⟨by decide, by decide, by decide, rfl, ?_, by decide, ?_, ?_, ?_⟩
  · rfl
  · rfl
  · rfl
  · rfl

/-! ## C14 -/

theorem store_bytes_frame (le : Bool) (va : Mem) (w pos v a : Nat)
    (h : ¬ (elem_offset w pos ≤ a ∧ a < elem_offset w pos + w)) :
    store_bytes le va w pos v a = va a := by
  unfold store_bytes
  rw [if_neg h]

/-- The write loop in a mapping that holds every addressed element: it
completes, and every byte outside the 64-bit byte ranges of the elements
keeps its value. -/
theorem write_loop_frame_aux (le : Bool) (len : Nat) (va : Mem) (width step index : Nat)
    (buf : List Nat) (n : Nat)
    (hmap : ∀ i, i < n → elem_offset width (elem_pos step index i) + width ≤ len) :
    ∃ m, write_loop le len width step index buf va n = some m
      ∧ ∀ a, (∀ i, i < n →
          ¬ (elem_offset width (elem_pos step index i) ≤ a
            ∧ a < elem_offset width (elem_pos step index i) + width)) →
        m a = va a := by
  induction n with
  | zero => exact ⟨va, rfl, fun _ _ => rfl⟩
  | succ n ih =>
    obtain ⟨m, hm, hfr⟩ := ih (fun i hi => hmap i (by omega))
    by_cases hw : width_ok width
    · refine ⟨store_bytes le m width (elem_pos step index n) (buf.getD n 0), ?_, ?_⟩
      · simp only [write_loop, hm, if_pos hw, store_elem, if_pos (hmap n (by omega))]
      · intro a ha
        rw [store_bytes_frame le m width _ _ a (ha n (by omega))]
        exact hfr a (fun i hi => ha i (by omega))
    · refine ⟨m, ?_, ?_⟩
      · simp only [write_loop, hm, if_neg hw]
      · intro a ha
        exact hfr a (fun i hi => ha i (by omega))

/-- C14 (as amended): for every host byte order, width in {1,2,4,8},
`step >= 1`, index, number, source buffer and prior content.  Whenever
`(number-1)*(width*step) + width*(index+1) < 2^64` (no 64-bit wrap-around),
in a mapping of at least `size_min` bytes the write loop completes and every
byte whose offset is not in `[(i*step+index)*width, (i*step+index)*width +
width)` for some `i < number` has the same value after it as before.  With
wrap-around, as long as every store stays inside the mapping, the bytes that
may change are those of the ranges at the 64-bit offsets
`((i*step+index) mod 2^64) * width mod 2^64`. -/
theorem write_loop_frame (le : Bool) (len : Nat) (va : Mem) (width step index number : Nat)
    (buf : List Nat) (hw : width_ok width) (hs : 1 ≤ step) :
    ((number - 1) * (width * step) + width * (index + 1) < 2 ^ 64 →
      size_min number width step index ≤ len →
      ∃ m, write_loop le len width step index buf va number = some m
        ∧ ∀ a, (∀ i, i < number →
            ¬ ((i * step + index) * width ≤ a ∧ a < (i * step + index) * width + width)) →
          m a = va a)
    ∧ ((∀ i, i < number → elem_offset width (elem_pos step index i) + width ≤ len) →
      ∃ m, write_loop le len width step index buf va number = some m
        ∧ ∀ a, (∀ i, i < number →
            ¬ (elem_offset width (elem_pos step index i) ≤ a
              ∧ a < elem_offset width (elem_pos step index i) + width)) →
          m a = va a) := by
  have h1 : 1 ≤ width := by unfold width_ok at hw; omega
  refine ⟨?_, write_loop_frame_aux le len va width step index buf number⟩
  intro hnw hmapped
  obtain ⟨m, hm, hfr⟩ := write_loop_frame_aux le len va width step index buf number
    (fun i hi => elem_mapped_of_no_wrap number width step index len i hi h1 hs hnw hmapped)
  refine ⟨m, hm, ?_⟩
  intro a ha
  apply hfr a
  intro i hi
  rw [elem_offset_exact number width step index i hi h1 hnw]
  exact ha i hi

/-- C14, an instance: two 16-bit elements at step 2, index 1 in the 8 mapped
bytes; byte 1 belongs to the untouched element 0 and keeps its value. -/
theorem write_loop_frame_witness :
    (width_ok 2 ∧ 1 ≤ 2 ∧ (2 - 1) * (2 * 2) + 2 * (1 + 1) < 2 ^ 64 ∧ size_min 2 2 2 1 ≤ 8
      ∧ (∀ i, i < 2 → ¬ ((i * 2 + 1) * 2 ≤ 1 ∧ 1 < (i * 2 + 1) * 2 + 2)))
    ∧ ∃ m, write_loop true 8 2 2 1 [0x1234, 0xabcd] (fun a => a + 7) 2 = some m
        ∧ ∀ a, (∀ i, i < 2 → ¬ ((i * 2 + 1) * 2 ≤ a ∧ a < (i * 2 + 1) * 2 + 2)) →
          m a = (fun a => a + 7) a :=
  ⟨⟨by decide, by decide, by norm_num, by decide, by decide⟩,
   (write_loop_frame true 8 (fun a => a + 7) 2 2 1 2 [0x1234, 0xabcd] (by decide)
      (by decide)).1 (by norm_num) (by decide)⟩

/-- C14 as stated fails: `-w 8 -t 0x2000000000000001 -n 2` passes the
parameter check with `size_min = 16`.  The exact offsets of the two elements
are 0 and `2^64 + 8`; byte 8 of the mapping is in neither range, yet the
write loop, for which the address of element 1 wraps around to byte 8,
changes it from 0 to the low byte `0x22` of `buf[1]`. -/
theorem byte_outside_ranges_changed :
    width_ok 8 ∧ 1 ≤ 2 ^ 61 + 1 ∧ 0 < 2 ^ 61 + 1 ∧ 1 ≤ 2
    ∧ check_params 8 (2 ^ 61 + 1) 0 2 0 = .ok (16, 16)
    ∧ (1 * (2 ^ 61 + 1) + 0) * 8 = 2 ^ 64 + 8
    ∧ (∀ i, i < 2 →
        ¬ ((i * (2 ^ 61 + 1) + 0) * 8 ≤ 8 ∧ 8 < (i * (2 ^ 61 + 1) + 0) * 8 + 8))
    ∧ elem_offset 8 (elem_pos (2 ^ 61 + 1) 0 1) = 8
    ∧ (fun _ => 0 : Mem) 8 = 0
    ∧ (match write_loop true 16 8 (2 ^ 61 + 1) 0 [0x1111111111111111, 0x2222222222222222]
          (fun _ => 0) 2 with
        | none => none
        | some m => some (m 8)) = some 0x22 := by
  refine ⟨by decide, by decide, by decide, by decide, rfl, by norm_num, by decide, by decide,
    rfl, ?_⟩
  decide


end Devmem
